import Mathlib

/-!
Verification of the reference-multiplexing pickle subsystem
(`mlem/contrib/callable.py`, class `PickleModelIO` with `_ModelPickler` /
`_ModelUnpickler`).

Shallow embedding conventions:
* Python strings (artifact names, paths, codec identities) are `List Char`.
* The object graph handled by the pickler is `Value`: every node carries a
  runtime-type identifier and a list of fields; structural pickling recurses
  over the fields.
* `uuid4()` is modelled by a fresh-token supply threaded as a counter: the
  properties of uuid4 that the code relies on are process-uniqueness and the
  token alphabet being free of the `'_'` delimiter and of `'.'`; `mintToken`
  provides both, and the counter models the global uuid4 state.
* Codec classes (`ModelIO` subclasses) are identified by a numeric id.
  Id 0 stands for `PickleModelIO` itself and id 1 for `SimplePickleIO`;
  `isGenericIo` mirrors `isinstance(io, (PickleModelIO, SimplePickleIO))`.
* External collaborators (`ModelAnalyzer.analyze`, the hook registry, the
  sub-codecs' own `dump`/`load`, `import_module` resolution) live in an
  `Env` record and are universally quantified in the theorems.
* `dill.Pickler.save` consults `persistent_id` for every traversed object
  before its memo table, so the serializer invokes the interception hook at
  every node; exceptions are modelled by `Except` results.
-/

/-- Python strings are modelled as lists of characters. -/
abbrev Name : Type := List Char

/-- Constant `PickleModelIO.file_name = "data.pkl"`, the reserved root artifact name. -/
def rootName : Name := ['d', 'a', 't', 'a', '.', 'p', 'k', 'l']

/-- Constant `PickleModelIO.io_ext = ".io"`, the descriptor-artifact suffix. -/
def ioExt : Name := ['.', 'i', 'o']

/-- Tokens: `str(uuid4())` modelled as an injective supply of tokens over an alphabet
without `'_'` and `'.'` (uuid4 strings consist of hex digits and hyphens). -/
def mintToken (n : Nat) : Name := 'u' :: List.replicate n 'x'

/-- Path joining `posixpath.join(p, n)` for a relative second component. -/
def pjoin (p n : Name) : Name := p ++ '/' :: n

/-- Test `art_name.endswith(self.io_ext)`. -/
def endsWithExt (n : Name) : Bool := List.isSuffixOf ioExt n

/-- Slice `art_name[: -len(self.io_ext)]`: strip the `.io` suffix. -/
def dropExt (n : Name) : Name := List.take (List.length n - List.length ioExt) n

/-- Split `name.split("_", maxsplit=1)` when an underscore is present: the pair of
the part before the first `'_'` and the remainder.  `none` models the
unpacking `ValueError` when the name has no underscore at all. -/
def splitFirstU : Name → Option (Name × Name)
  | [] => none
  | c :: cs =>
    if c = '_' then some ([], cs)
    else (splitFirstU cs).map (fun p => (c :: p.1, p.2))

/-- Formatting `f"{uuid}_{k}"`: dump-side re-keying of a sub-codec artifact name. -/
def rekeyName (tok k : Name) : Name := tok ++ '_' :: k

/-- Concatenation `uuid + self.io_ext`: the descriptor artifact name of a token. -/
def descName (tok : Name) : Name := tok ++ ioExt

/-- Split `full_name.split(".")` (split on every dot, Python semantics: the result
is never empty and empty segments are kept). -/
def splitDots : Name → List Name
  | [] => [[]]
  | c :: cs =>
    if c = '.' then [] :: splitDots cs
    else
      match splitDots cs with
      | [] => [[c]]
      | h :: t => ((c :: h : Name)) :: t

/-- Join `".".join(parts)`. -/
def joinDots : List Name → Name
  | [] => []
  | [x] => x
  | x :: xs => x ++ '.' :: joinDots xs

/-- Python `dict` lookup on an insertion-ordered association list. -/
def lookupD {κ α : Type} [DecidableEq κ] : List (κ × α) → κ → Option α
  | [], _ => none
  | (k', v) :: t, k => if k' = k then some v else lookupD t k

/-- Python `d[k] = v`: replace in place if the key is present, else append. -/
def dictInsert {κ α : Type} [DecidableEq κ] (d : List (κ × α)) (k : κ) (v : α) :
    List (κ × α) :=
  if d.any (fun q => q.1 = k) then
    d.map (fun q => if q.1 = k then (k, v) else q)
  else d ++ [(k, v)]

/-- The value graph handed to the pickler: each node has a runtime type id
and the list of sub-objects the structural encoding recurses into. -/
inductive Value where
  | mk (tyId : Nat) (fields : List Value)

mutual
/-- Decidable equality on values (hand-rolled: `deriving` does not support
this nested inductive). -/
def Value.decEq : (a b : Value) → Decidable (a = b)
  | .mk t fs, .mk t' fs' =>
    match Nat.decEq t t', Value.decEqList fs fs' with
    | isTrue h1, isTrue h2 => isTrue (by rw [h1, h2])
    | isFalse h1, _ => isFalse (by intro h; injection h; contradiction)
    | isTrue _, isFalse h2 => isFalse (by intro h; injection h; contradiction)

/-- Decidable equality on value lists. -/
def Value.decEqList : (as bs : List Value) → Decidable (as = bs)
  | [], [] => isTrue rfl
  | [], _ :: _ => isFalse (by intro h; exact List.noConfusion h)
  | _ :: _, [] => isFalse (by intro h; exact List.noConfusion h)
  | a :: as, b :: bs =>
    match Value.decEq a b, Value.decEqList as bs with
    | isTrue h1, isTrue h2 => isTrue (by rw [h1, h2])
    | isFalse h1, _ => isFalse (by intro h; injection h; contradiction)
    | isTrue _, isFalse h2 => isFalse (by intro h; injection h; contradiction)
end

instance : DecidableEq Value := Value.decEq

/-- Runtime type of a value (`type(obj)` up to the id abstraction). -/
def Value.tyId : Value → Nat
  | .mk t _ => t

/-- The fields the structural encoding recurses into. -/
def Value.fields : Value → List Value
  | .mk _ fs => fs

/-- The pickle stream produced by `_ModelPickler`: structural nodes plus
persistent-id placeholders holding reference tokens. -/
inductive Blob where
  | persid (tok : Name)
  | node (tyId : Nat) (fields : List Blob)

mutual
/-- Decidable equality on pickle streams. -/
def Blob.decEq : (a b : Blob) → Decidable (a = b)
  | .persid t, .persid t' =>
    match List.hasDecEq t t' with
    | isTrue h => isTrue (by rw [h])
    | isFalse h => isFalse (by intro he; injection he; contradiction)
  | .persid _, .node _ _ => isFalse (by intro h; exact Blob.noConfusion h)
  | .node _ _, .persid _ => isFalse (by intro h; exact Blob.noConfusion h)
  | .node t fs, .node t' fs' =>
    match Nat.decEq t t', Blob.decEqList fs fs' with
    | isTrue h1, isTrue h2 => isTrue (by rw [h1, h2])
    | isFalse h1, _ => isFalse (by intro h; injection h; contradiction)
    | isTrue _, isFalse h2 => isFalse (by intro h; injection h; contradiction)

/-- Decidable equality on pickle-stream lists. -/
def Blob.decEqList : (as bs : List Blob) → Decidable (as = bs)
  | [], [] => isTrue rfl
  | [], _ :: _ => isFalse (by intro h; exact List.noConfusion h)
  | _ :: _, [] => isFalse (by intro h; exact List.noConfusion h)
  | a :: as, b :: bs =>
    match Blob.decEq a b, Blob.decEqList as bs with
    | isTrue h1, isTrue h2 => isTrue (by rw [h1, h2])
    | isFalse h1, _ => isFalse (by intro h; injection h; contradiction)
    | isTrue _, isFalse h2 => isFalse (by intro h; injection h; contradiction)
end

instance : DecidableEq Blob := Blob.decEq

/-- Contents of one written artifact: the root pickle stream, a descriptor
payload (utf-8 codec identity), or a sub-codec's own opaque encoding. -/
inductive Payload where
  | bytes (b : Blob)
  | text (s : Name)
  | val (v : Value)
deriving DecidableEq

/-- A named binary blob handle as returned by `storage.open`; `path` is the
storage location, `content` what was written through the sink. -/
structure Artifact where
  path : Name
  content : Payload
deriving DecidableEq

/-- Type `Artifacts = Dict[str, Artifact]` as an insertion-ordered list. -/
abbrev Arts : Type := List (Name × Artifact)

/-- Outcome of `ModelAnalyzer.analyze(obj)`: `notModel` models the
`ValueError` raised for non-model objects, `model i` a successful analysis
whose `ModelType.io` instance has codec class `i`. -/
inductive AnalyzeResult where
  | notModel
  | model (ioId : Nat)
deriving DecidableEq

/-- One entry of `ModelAnalyzer.hooks`: whether it is a `CallableModelType`
hook and its `valid_types` tuple. -/
structure Hook where
  isCallable : Bool
  validTypes : List Nat

/-- A codec class (`ModelIO` subclass): its `__module__`, `__name__`, and its
`dump`/`load` methods.  `cdump` takes the storage path and the object and
returns that codec's own artifact mapping; `cload` is its inverse half,
`none` modelling a raised exception. -/
structure CodecSpec where
  modName : Name
  clsName : Name
  cdump : Name → Value → Arts
  cload : Arts → Option Value

/-- The external world: hook registry, `ModelAnalyzer.analyze`, codec classes
by id, and the `import_module` resolution table mapping
`(module, class name)` to the codec class id. -/
structure Env where
  hooks : List Hook
  analyze : Value → AnalyzeResult
  codec : Nat → CodecSpec
  importTable : List ((Name × Name) × Nat)

/-- Test `isinstance(io, (PickleModelIO, SimplePickleIO))`: codec ids 0 and 1 are
the generic/fallback codecs. -/
def isGenericIo (i : Nat) : Bool := i == 0 || i == 1

/-- The known-types set computed once in `_ModelPickler.__init__`: the union
of `hook.valid_types` over hooks that are not `CallableModelType` and have a
truthy (non-empty) `valid_types`. -/
def knownTypesL (env : Env) : List Nat :=
  env.hooks.foldl
    (fun acc h => if !h.isCallable && !h.validTypes.isEmpty then acc ++ h.validTypes else acc)
    []

/-- Guard `isinstance(obj, self.known_types)`: whether the guard in
`_get_non_pickle_io` passes, i.e. whether `ModelAnalyzer.analyze` gets
invoked on this object. -/
def analyzeInvoked (env : Env) (v : Value) : Bool :=
  decide (v.tyId ∈ knownTypesL env)

/-- Method `_ModelPickler._get_non_pickle_io`: `none` unless the runtime type is in
the known-types set; then consult the analyzer, suppressing the non-model
`ValueError` and the generic codecs. -/
def getNonPickleIo (env : Env) (v : Value) : Option Nat :=
  if v.tyId ∈ knownTypesL env then
    match env.analyze v with
    | .notModel => none
    | .model i => if isGenericIo i then none else some i
  else none

/-- Mutable state of one `_ModelPickler`: the uuid4 supply, `self.refs`, and
(for auditing claim C4) the log of objects passed to `ModelAnalyzer.analyze`. -/
structure PState where
  counter : Nat
  refs : List (Name × Nat × Value)
  analyzed : List Value

/-- Record the analyzer invocation performed by `_get_non_pickle_io` (the
guard line `if not isinstance(obj, self.known_types)`). -/
def hookState (env : Env) (v : Value) (st : PState) : PState :=
  if analyzeInvoked env v then { st with analyzed := st.analyzed ++ [v] } else st

mutual
/-- Traversal `dill.Pickler.save` under `_ModelPickler`: consult `persistent_id` on the
object; a `some` outcome emits a placeholder and appends to `self.refs`
(minting a fresh uuid), a `none` outcome encodes the node structurally,
recursing into its fields. -/
def serializeVal (env : Env) : Value → PState → Blob × PState
  | .mk ty fs, st =>
    let st := hookState env (.mk ty fs) st
    match getNonPickleIo env (.mk ty fs) with
    | some i =>
      (.persid (mintToken st.counter),
        { st with
          counter := st.counter + 1
          refs := st.refs ++ [(mintToken st.counter, i, Value.mk ty fs)] })
    | none =>
      let r := serializeFields env fs st
      (.node ty r.1, r.2)

/-- Structural encoding of a field list, left to right. -/
def serializeFields (env : Env) : List Value → PState → List Blob × PState
  | [], st => ([], st)
  | v :: vs, st =>
    let r := serializeVal env v st
    let r2 := serializeFields env vs r.2
    (r.1 :: r2.1, r2.2)
end

/-- Method `PickleModelIO._serialize_model`: pickle the model from a fresh pickler
state (the counter argument models the ambient uuid4 state). -/
def serializeModel (env : Env) (c : Nat) (model : Value) : Blob × PState :=
  serializeVal env model ⟨c, [], []⟩

/-- Method `PickleModelIO._serialize_io`: `f"{type(io).__module__}.{type(io).__name__}"`. -/
def serIoName (env : Env) (i : Nat) : Name :=
  (env.codec i).modName ++ '.' :: (env.codec i).clsName

/-- Process one `(uuid, (io, obj))` entry of `refs` inside `PickleModelIO.dump`:
merge the re-keyed sub-codec artifacts, then write the descriptor artifact. -/
def dumpRef (env : Env) (path : Name) (arts : Arts) (r : Name × Nat × Value) : Arts :=
  let sub := (env.codec r.2.1).cdump (pjoin path r.1) r.2.2
  let arts :=
    sub.foldl (fun a q => dictInsert a (rekeyName r.1 q.1) q.2) arts
  dictInsert arts (descName r.1)
    ⟨pjoin path (descName r.1), .text (serIoName env r.2.1)⟩

/-- Method `PickleModelIO.dump`: serialize, then either the single-artifact shortcut
(empty refs) or the multiplexed layout.  The returned `Nat` is the advanced
uuid4 supply. -/
def dump (env : Env) (c : Nat) (path : Name) (model : Value) : Arts × Nat :=
  let r := serializeModel env c model
  if r.2.refs.length = 0 then
    (([(rootName, ⟨path, .bytes r.1⟩)] : Arts), r.2.counter)
  else
    let arts0 : Arts := [(rootName, ⟨pjoin path rootName, .bytes r.1⟩)]
    (r.2.refs.foldl (dumpRef env path) arts0, r.2.counter)

/-- Load-side failure modes: `missingRoot` is the `KeyError` on
`artifacts[self.file_name]`, `badName` the unpacking `ValueError` of
`art_name.split("_", maxsplit=1)`, `badDescriptor` a failed
`_deserialize_io`, `codecLoadFailed` an exception out of a sub-codec's
`load`, `missingToken` the `KeyError` in `persistent_load`, and `badPickle`
an unpicklable root payload. -/
inductive LoadErr where
  | missingRoot
  | badName (n : Name)
  | badDescriptor (u : Name)
  | codecLoadFailed (u : Name)
  | missingToken (t : Name)
  | badPickle
deriving DecidableEq

/-- Method `PickleModelIO._deserialize_io` followed by instantiation: decode the
identity, split off the class name after the last dot, re-join the module
path, and resolve through the import table. -/
def deserializeIo (tbl : List ((Name × Name) × Nat)) (p : Payload) : Option Nat :=
  match p with
  | .text s =>
    let parts := splitDots s
    match parts.getLast? with
    | none => none
    | some tyName => lookupD tbl (joinDots parts.dropLast, tyName)
  | _ => none

/-- How the load-side partition treats one artifact name: the
`endswith(io_ext)` test comes first, then the first-underscore split. -/
inductive ArtClass where
  | descriptor (uuid : Name)
  | data (uuid : Name) (sub : Name)
  | malformed
deriving DecidableEq

/-- Classification of a non-root artifact name in `PickleModelIO.load`. -/
def classifyName (n : Name) : ArtClass :=
  if endsWithExt n then .descriptor (dropExt n)
  else
    match splitFirstU n with
    | some (u, s) => .data u s
    | none => .malformed

/-- Insertion a la `defaultdict(dict)`: `ref_artifacts[uuid][subname] = art`. -/
def groupInsert (g : List (Name × Arts)) (u k : Name) (a : Artifact) :
    List (Name × Arts) :=
  if g.any (fun q => q.1 = u) then
    g.map (fun q => if q.1 = u then (q.1, dictInsert q.2 k a) else q)
  else g ++ [(u, ([(k, a)] : Arts))]

/-- Accumulator of the partition loop in `PickleModelIO.load`: `refIos` is
`ref_ios` with descriptors already resolved to codec ids (resolution happens
inside the loop in the source), `groups` is `ref_artifacts`. -/
structure PartSt where
  refIos : List (Name × Nat)
  groups : List (Name × Arts)

/-- One iteration of the partition loop: skip entries whose artifact equals
the root artifact, resolve descriptor entries, group data entries. -/
def partStep (env : Env) (root : Artifact) (st : PartSt) (p : Name × Artifact) :
    Except LoadErr PartSt :=
  if p.2 = root then .ok st
  else
    match classifyName p.1 with
    | .descriptor u =>
      match deserializeIo env.importTable p.2.content with
      | none => .error (.badDescriptor u)
      | some i => .ok ⟨dictInsert st.refIos u i, st.groups⟩
    | .data u s => .ok ⟨st.refIos, groupInsert st.groups u s p.2⟩
    | .malformed => .error (.badName p.1)

/-- The full partition pass of `PickleModelIO.load` over `artifacts.items()`. -/
def partitionArts (env : Env) (root : Artifact) (arts : Arts) :
    Except LoadErr PartSt :=
  arts.foldlM (partStep env root) ⟨[], []⟩

/-- One iteration of the reconstruction loop: instantiate the codec, call
its `load` on the grouped artifacts (`ref_artifacts.get(uuid, {})`), and
record `refs[uuid] = value`; a raised exception propagates. -/
def loadRefStep (env : Env) (groups : List (Name × Arts))
    (acc : List (Name × Value)) (q : Name × Nat) :
    Except LoadErr (List (Name × Value)) :=
  match (env.codec q.2).cload ((lookupD groups q.1).getD ([] : Arts)) with
  | some v => Except.ok (dictInsert acc q.1 v)
  | none => Except.error (.codecLoadFailed q.1)

/-- Loop `for uuid, io in ref_ios.items(): refs[uuid] = io.load(ref_artifacts.get(uuid, {}))`. -/
def loadRefs (env : Env) (groups : List (Name × Arts)) :
    List (Name × Nat) → Except LoadErr (List (Name × Value)) :=
  List.foldlM (loadRefStep env groups) []

mutual
/-- Class `_ModelUnpickler`: structural decode of the pickle stream, resolving each
placeholder through `persistent_load`, i.e. `self.refs[pid]` — a missing
token is a `KeyError`. -/
def deserializeBlob (refs : List (Name × Value)) : Blob → Except LoadErr Value
  | .persid t =>
    match lookupD refs t with
    | some v => .ok v
    | none => .error (.missingToken t)
  | .node ty bs =>
    match deserializeBlobList refs bs with
    | .ok vs => .ok (.mk ty vs)
    | .error e => .error e

/-- Decode a field list left to right, stopping at the first failure. -/
def deserializeBlobList (refs : List (Name × Value)) :
    List Blob → Except LoadErr (List Value)
  | [] => .ok []
  | b :: bs =>
    match deserializeBlob refs b with
    | .ok v =>
      match deserializeBlobList refs bs with
      | .ok vs => .ok (v :: vs)
      | .error e => .error e
    | .error e => .error e
end

/-- Method `PickleModelIO.load`: look up the root, partition and resolve the
remaining artifacts when there are any, then unpickle against the
reconstructed reference map. -/
def load (env : Env) (arts : Arts) : Except LoadErr Value :=
  match lookupD arts rootName with
  | none => .error .missingRoot
  | some root =>
    let refsE : Except LoadErr (List (Name × Value)) :=
      if List.length arts > 1 then
        match partitionArts env root arts with
        | .ok pst => loadRefs env pst.groups pst.refIos
        | .error e => .error e
      else .ok []
    match refsE with
    | .error e => .error e
    | .ok refs =>
      match root.content with
      | .bytes b => deserializeBlob refs b
      | _ => .error .badPickle

mutual
/-- The reference tokens occurring in a pickle stream, in traversal order. -/
def blobTokens : Blob → List Name
  | .persid t => [t]
  | .node _ bs => blobTokensList bs

/-- Tokens of a stream list, in order. -/
def blobTokensList : List Blob → List Name
  | [] => []
  | b :: bs => blobTokens b ++ blobTokensList bs
end

/-- The artifact entries `PickleModelIO.dump` appends for one reference:
the re-keyed sub-codec artifacts followed by the descriptor artifact. -/
def refBlock (env : Env) (path : Name) (r : Name × Nat × Value) : Arts :=
  ((env.codec r.2.1).cdump (pjoin path r.1) r.2.2).map
      (fun q => (rekeyName r.1 q.1, q.2))
    ++ [(descName r.1, ⟨pjoin path (descName r.1), .text (serIoName env r.2.1)⟩)]

/-- The `ref_artifacts` grouping that the load-side partition reconstructs
from a dump-produced artifact set: one group per reference whose sub-codec
artifact set is non-empty, in reference order. -/
def groupsOf (env : Env) (path : Name) (refs : List (Name × Nat × Value)) :
    List (Name × Arts) :=
  refs.filterMap (fun r =>
    let sub := (env.codec r.2.1).cdump (pjoin path r.1) r.2.2
    if sub.isEmpty then none else some (r.1, sub))

/-- Remove the artifact stored under one name (the corruption operation of
the corruption-detection property). -/
def removeKey (d : Arts) (k : Name) : Arts := d.filter (fun q => q.1 ≠ k)

/-- The contract the surrounding system guarantees for one intercepted
reference: the codec's artifact names are unique and do not end in the
descriptor suffix, its artifact payloads are its own opaque encodings
(neither a root pickle stream nor a descriptor text), its serialized
identity resolves back to its own class through the import table, and its
`load` inverts its `dump`. -/
def RefOK (env : Env) (path : Name) (r : Name × Nat × Value) : Prop :=
  (((env.codec r.2.1).cdump (pjoin path r.1) r.2.2).map Prod.fst).Nodup ∧
  (∀ q ∈ (env.codec r.2.1).cdump (pjoin path r.1) r.2.2,
      endsWithExt q.1 = false ∧ ∃ w, q.2.content = Payload.val w) ∧
  deserializeIo env.importTable (Payload.text (serIoName env r.2.1)) = some r.2.1 ∧
  (env.codec r.2.1).cload ((env.codec r.2.1).cdump (pjoin path r.1) r.2.2) = some r.2.2

/-- A concrete specialized codec used to instantiate the theorems: it stores
the value as a single opaque artifact named `"w"`. -/
def testCodec : CodecSpec where
  modName := ['p', 'k', 'g', '.', 'm', 'o', 'd']
  clsName := ['T', 'f']
  cdump := fun p v => [(['w'], ⟨pjoin p ['w'], .val v⟩)]
  cload := fun a =>
    match lookupD a ['w'] with
    | some art =>
      match art.content with
      | .val v => some v
      | _ => none
    | none => none

/-- A concrete environment: one non-callable hook claiming runtime type 7,
an analyzer that resolves type-7 objects to codec class 5 (= `testCodec`),
and an import table resolving that codec's identity. -/
def testEnv : Env where
  hooks := [⟨false, [7]⟩]
  analyze := fun v => if v.tyId = 7 then .model 5 else .notModel
  codec := fun _ => testCodec
  importTable := [(((['p', 'k', 'g', '.', 'm', 'o', 'd'], ['T', 'f'])), 5)]

/-- A variant environment whose analyzer always reports "not a model"
(raises `ValueError`), for the fallback properties. -/
def testEnvNoModel : Env where
  hooks := [⟨false, [7]⟩]
  analyze := fun _ => .notModel
  codec := fun _ => testCodec
  importTable := [(((['p', 'k', 'g', '.', 'm', 'o', 'd'], ['T', 'f'])), 5)]

/-- A value with no sub-value of a known type. -/
def vPlain : Value := .mk 0 [.mk 1 [], .mk 2 [.mk 3 []]]

/-- A value with one intercepted sub-value. -/
def vOne : Value := .mk 0 [.mk 7 []]

/-- A value with intercepted sub-values at different depths, one of which
contains further type-7 structure handled by its own codec. -/
def vMulti : Value := .mk 0 [.mk 7 [], .mk 2 [.mk 7 [.mk 9 []], .mk 3 []]]

/-- A value in which one and the same intercepted sub-value is reachable
through two different paths of the graph. -/
def vShared : Value := .mk 0 [.mk 7 [], .mk 7 []]

/-! ### Tokens and the artifact-name algebra -/

theorem mintToken_inj {m n : Nat} (h : mintToken m = mintToken n) : m = n := by
  have hl := congrArg List.length h
  simpa [mintToken] using hl

theorem underscore_not_mem_mintToken (n : Nat) : '_' ∉ mintToken n := by
  simp [mintToken, List.mem_replicate]

theorem dot_not_mem_mintToken (n : Nat) : '.' ∉ mintToken n := by
  simp [mintToken, List.mem_replicate]

theorem underscore_not_mem_rootName : '_' ∉ rootName := by decide

theorem splitFirstU_rekey {t : Name} (ht : '_' ∉ t) (k : Name) :
    splitFirstU (rekeyName t k) = some (t, k) := by
  induction t with
  | nil => simp [rekeyName, splitFirstU]
  | cons c cs ih =>
    have hc : ¬(c = '_') := fun h => ht (h ▸ List.mem_cons_self c cs)
    have hcs : '_' ∉ cs := fun h => ht (List.mem_cons_of_mem c h)
    have : rekeyName (c :: cs) k = c :: rekeyName cs k := by
      simp [rekeyName]
    rw [this, splitFirstU, if_neg hc, ih hcs]
    rfl

theorem rekeyName_inj {t t' k k' : Name} (ht : '_' ∉ t) (ht' : '_' ∉ t')
    (h : rekeyName t k = rekeyName t' k') : t = t' ∧ k = k' := by
  have h1 := splitFirstU_rekey ht k
  have h2 := splitFirstU_rekey ht' k'
  rw [h, h2] at h1
  have h3 := Option.some.inj h1
  exact ⟨(congrArg Prod.fst h3).symm, (congrArg Prod.snd h3).symm⟩

theorem underscore_mem_rekeyName (t k : Name) : '_' ∈ rekeyName t k := by
  simp [rekeyName]

theorem underscore_not_mem_descName {t : Name} (ht : '_' ∉ t) :
    '_' ∉ descName t := by
  intro h
  rcases List.mem_append.mp h with h | h
  · exact ht h
  · simp [ioExt] at h

theorem descName_inj {t t' : Name} (h : descName t = descName t') : t = t' :=
  List.append_cancel_right h

/-- Lemma: `endsWithExt` computed from the right: the definitional unfolding of
`List.isSuffixOf` through reversal. -/
theorem endsWithExt_eq (n : Name) :
    endsWithExt n = List.isPrefixOf (ioExt.reverse) n.reverse := rfl

theorem endsWithExt_descName (t : Name) : endsWithExt (descName t) = true := by
  rw [endsWithExt_eq, descName, List.reverse_append]
  show List.isPrefixOf ['o', 'i', '.'] (['o', 'i', '.'] ++ t.reverse) = true
  simp [List.isPrefixOf]

/-- Auxiliary: prefix testing of `".io"` reversed against `kr ++ '_' :: tr`
reduces to testing against `kr` alone (the underscore blocks any overlap). -/
theorem isPrefixOf_extRev_append {kr : List Char} (tr : List Char)
    (h : List.isPrefixOf (ioExt.reverse) kr = false) :
    List.isPrefixOf (ioExt.reverse) (kr ++ '_' :: tr) = false := by
  match kr with
  | [] => simp [ioExt, List.isPrefixOf]
  | [a] => simp [ioExt, List.isPrefixOf]
  | [a, b] => simp [ioExt, List.isPrefixOf]
  | a :: b :: c :: r =>
    show List.isPrefixOf ['o', 'i', '.'] _ = false
    simp only [List.cons_append, List.isPrefixOf, Bool.and_eq_false_iff] at h ⊢
    rcases h with h | h
    · exact Or.inl h
    · rcases h with h | h
      · exact Or.inr (Or.inl h)
      · exact Or.inr (Or.inr h)

theorem endsWithExt_rekey {k : Name} (hk : endsWithExt k = false) (t : Name) :
    endsWithExt (rekeyName t k) = false := by
  rw [endsWithExt_eq] at hk ⊢
  have hrev : (rekeyName t k).reverse = k.reverse ++ '_' :: t.reverse := by
    simp [rekeyName]
  rw [hrev]
  exact isPrefixOf_extRev_append t.reverse hk

theorem endsWithExt_rootName : endsWithExt rootName = false := by decide

theorem rootName_ne_descName (t : Name) : rootName ≠ descName t := by
  intro h
  have := endsWithExt_descName t
  rw [← h, endsWithExt_rootName] at this
  exact Bool.false_ne_true this

theorem rootName_ne_rekeyName (t k : Name) : rootName ≠ rekeyName t k := by
  intro h
  exact underscore_not_mem_rootName (h ▸ underscore_mem_rekeyName t k)

theorem descName_ne_rekeyName {t : Name} (ht : '_' ∉ t) (t' k : Name) :
    descName t ≠ rekeyName t' k := by
  intro h
  exact underscore_not_mem_descName ht (h ▸ underscore_mem_rekeyName t' k)

theorem dropExt_descName (t : Name) : dropExt (descName t) = t := by
  have h1 : (descName t).length - ioExt.length = t.length := by
    simp [descName, List.length_append]
  rw [dropExt, h1, descName, List.take_left]

/-! ### Dots: codec-identity serialization -/

theorem splitDots_ne_nil (m : Name) : splitDots m ≠ [] := by
  match m with
  | [] => simp [splitDots]
  | c :: cs =>
    rw [splitDots]
    split
    · simp
    · match h : splitDots cs with
      | [] => simp
      | h' :: t => simp

theorem splitDots_append_dot (a b : Name) :
    splitDots (a ++ '.' :: b) = splitDots a ++ splitDots b := by
  induction a with
  | nil => simp [splitDots]
  | cons c cs ih =>
    by_cases hc : c = '.'
    · subst hc
      show splitDots ('.' :: (cs ++ '.' :: b)) = splitDots ('.' :: cs) ++ splitDots b
      rw [splitDots, if_pos rfl, splitDots, if_pos rfl, ih, List.cons_append]
    · show splitDots (c :: (cs ++ '.' :: b)) = splitDots (c :: cs) ++ splitDots b
      rw [splitDots, if_neg hc, splitDots, if_neg hc, ih]
      match h : splitDots cs with
      | [] => exact absurd h (splitDots_ne_nil cs)
      | h' :: t => simp

theorem splitDots_no_dot {c : Name} (hc : '.' ∉ c) : splitDots c = [c] := by
  induction c with
  | nil => simp [splitDots]
  | cons x xs ih =>
    have hx : ¬(x = '.') := fun h => hc (h ▸ List.mem_cons_self x xs)
    have hxs : '.' ∉ xs := fun h => hc (List.mem_cons_of_mem x h)
    rw [splitDots, if_neg hx, ih hxs]

theorem joinDots_cons_head (c : Char) (h : Name) (t : List Name) :
    joinDots ((c :: h : Name) :: t) = c :: joinDots ((h : Name) :: t) := by
  match t with
  | [] => rfl
  | x :: xs => simp [joinDots]

theorem joinDots_splitDots (m : Name) : joinDots (splitDots m) = m := by
  induction m with
  | nil => rfl
  | cons c cs ih =>
    by_cases hc : c = '.'
    · subst hc
      rw [splitDots, if_pos rfl]
      match h : splitDots cs with
      | [] => exact absurd h (splitDots_ne_nil cs)
      | h' :: t =>
        rw [h] at ih
        show joinDots (([] : Name) :: h' :: t) = '.' :: cs
        simp only [joinDots]
        rw [List.nil_append, ih]
    · rw [splitDots, if_neg hc]
      match h : splitDots cs with
      | [] => exact absurd h (splitDots_ne_nil cs)
      | h' :: t =>
        rw [h] at ih
        rw [joinDots_cons_head, ih]

/-! ### Association-list (Python dict) lemmas -/

theorem lookupD_append_right {κ α : Type} [DecidableEq κ] {a : List (κ × α)}
    (b : List (κ × α)) {k : κ} (h : k ∉ a.map Prod.fst) :
    lookupD (a ++ b) k = lookupD b k := by
  induction a with
  | nil => rfl
  | cons q t ih =>
    have hq : ¬(q.1 = k) := fun he => h (by simp [he])
    have ht : k ∉ t.map Prod.fst := fun hm => h (by simp [hm])
    cases q
    rw [List.cons_append, lookupD, if_neg hq]
    exact ih ht

theorem lookupD_append_left {κ α : Type} [DecidableEq κ] {a : List (κ × α)}
    (b : List (κ × α)) {k : κ} {v : α} (h : lookupD a k = some v) :
    lookupD (a ++ b) k = some v := by
  induction a with
  | nil => simp [lookupD] at h
  | cons q t ih =>
    cases q with
    | mk k' v' =>
      rw [lookupD] at h
      rw [List.cons_append, lookupD]
      by_cases he : k' = k
      · rwa [if_pos he] at h ⊢
      · rw [if_neg he] at h ⊢
        exact ih h

theorem lookupD_eq_none {κ α : Type} [DecidableEq κ] {d : List (κ × α)} {k : κ}
    (h : k ∉ d.map Prod.fst) : lookupD d k = none := by
  induction d with
  | nil => rfl
  | cons q t ih =>
    have hq : ¬(q.1 = k) := fun he => h (by simp [he])
    have ht : k ∉ t.map Prod.fst := fun hm => h (by simp [hm])
    cases q
    rw [lookupD, if_neg hq]
    exact ih ht

theorem lookupD_cons_self {κ α : Type} [DecidableEq κ] (k : κ) (v : α)
    (t : List (κ × α)) : lookupD ((k, v) :: t) k = some v := by
  rw [lookupD, if_pos rfl]

theorem lookupD_of_mem_nodup {κ α : Type} [DecidableEq κ] {d : List (κ × α)}
    {k : κ} {v : α} (hnd : (d.map Prod.fst).Nodup) (h : (k, v) ∈ d) :
    lookupD d k = some v := by
  induction d with
  | nil => simp at h
  | cons q t ih =>
    obtain ⟨k', v'⟩ := q
    rw [List.map_cons, List.nodup_cons] at hnd
    rcases List.mem_cons.mp h with h | h
    · obtain ⟨h1, h2⟩ := Prod.mk.inj h
      subst h1; subst h2
      exact lookupD_cons_self k v t
    · have hq : ¬(k' = k) := by
        intro he
        exact hnd.1 (he ▸ List.mem_map.mpr ⟨(k, v), h, rfl⟩)
      rw [lookupD, if_neg hq]
      exact ih hnd.2 h

theorem dictInsert_fresh {κ α : Type} [DecidableEq κ] {d : List (κ × α)} {k : κ}
    (v : α) (h : k ∉ d.map Prod.fst) : dictInsert d k v = d ++ [(k, v)] := by
  rw [dictInsert, if_neg]
  rw [List.any_eq_true]
  rintro ⟨q, hq, hqe⟩
  exact h (List.mem_map.mpr ⟨q, hq, of_decide_eq_true hqe⟩)

theorem foldl_dictInsert_fresh {κ α : Type} [DecidableEq κ] :
    ∀ (l acc : List (κ × α)), (l.map Prod.fst).Nodup →
      (∀ q ∈ l, q.1 ∉ acc.map Prod.fst) →
      l.foldl (fun a q => dictInsert a q.1 q.2) acc = acc ++ l
  | [], acc, _, _ => by simp
  | q :: t, acc, hnd, hfresh => by
    obtain ⟨ka, va⟩ := q
    rw [List.map_cons, List.nodup_cons] at hnd
    have h1 : dictInsert acc ka va = acc ++ [(ka, va)] :=
      dictInsert_fresh va (hfresh (ka, va) (List.mem_cons_self _ t))
    have hfresh' : ∀ p ∈ t, p.1 ∉ (acc ++ [(ka, va)]).map Prod.fst := by
      intro p hp
      rw [List.map_append, List.mem_append]
      rintro (h | h)
      · exact hfresh p (List.mem_cons_of_mem _ hp) h
      · simp only [List.map_cons, List.map_nil, List.mem_singleton] at h
        exact hnd.1 (h ▸ List.mem_map.mpr ⟨p, hp, rfl⟩)
    rw [List.foldl_cons, h1, foldl_dictInsert_fresh t (acc ++ [(ka, va)]) hnd.2 hfresh']
    simp

/-! ### Serializer structure -/

theorem hookState_counter (env : Env) (v : Value) (st : PState) :
    (hookState env v st).counter = st.counter := by
  rw [hookState]; split <;> rfl

theorem hookState_refs (env : Env) (v : Value) (st : PState) :
    (hookState env v st).refs = st.refs := by
  rw [hookState]; split <;> rfl

theorem serializeVal_persid {env : Env} {ty : Nat} {fs : List Value} {i : Nat}
    (st : PState) (h : getNonPickleIo env (.mk ty fs) = some i) :
    serializeVal env (.mk ty fs) st =
      (.persid (mintToken st.counter),
        ⟨st.counter + 1,
         st.refs ++ [(mintToken st.counter, i, Value.mk ty fs)],
         (hookState env (.mk ty fs) st).analyzed⟩) := by
  have hc := hookState_counter env (.mk ty fs) st
  have hr := hookState_refs env (.mk ty fs) st
  simp only [serializeVal, h]
  rw [hc, hr]

theorem serializeVal_node {env : Env} {ty : Nat} {fs : List Value} (st : PState)
    (h : getNonPickleIo env (.mk ty fs) = none) :
    serializeVal env (.mk ty fs) st =
      (.node ty (serializeFields env fs (hookState env (.mk ty fs) st)).1,
       (serializeFields env fs (hookState env (.mk ty fs) st)).2) := by
  simp only [serializeVal, h]

theorem range'_glue {c c1 c2 : Nat} (h1 : c ≤ c1) (h2 : c1 ≤ c2) :
    List.range' c (c1 - c) ++ List.range' c1 (c2 - c1) = List.range' c (c2 - c) := by
  have hr := List.range'_append c (c1 - c) (c2 - c1) 1
  rw [one_mul, show c + (c1 - c) = c1 from by omega] at hr
  rw [hr, show c2 - c1 + (c1 - c) = c2 - c from by omega]

mutual
theorem serSpec (env : Env) : ∀ (v : Value) (st : PState),
    st.counter ≤ (serializeVal env v st).2.counter ∧
    ∃ Δ, (serializeVal env v st).2.refs = st.refs ++ Δ ∧
      Δ.map Prod.fst =
        (List.range' st.counter
          ((serializeVal env v st).2.counter - st.counter)).map mintToken ∧
      blobTokens (serializeVal env v st).1 = Δ.map Prod.fst
  | .mk ty fs, st => by
    match h : getNonPickleIo env (.mk ty fs) with
    | some i =>
      rw [serializeVal_persid st h]
      refine ⟨Nat.le_succ st.counter,
        [(mintToken st.counter, i, Value.mk ty fs)], rfl, ?_, rfl⟩
      show [mintToken st.counter]
        = (List.range' st.counter (st.counter + 1 - st.counter)).map mintToken
      rw [show st.counter + 1 - st.counter = 1 from by omega, List.range'_one,
        List.map_singleton]
    | none =>
      rw [serializeVal_node st h]
      have hc := hookState_counter env (.mk ty fs) st
      have hr := hookState_refs env (.mk ty fs) st
      obtain ⟨h1, Δ, e, m, b⟩ :=
        serSpecList env fs (hookState env (.mk ty fs) st)
      rw [hc] at h1 m
      rw [hr] at e
      exact ⟨h1, Δ, e, m, b⟩

theorem serSpecList (env : Env) : ∀ (vs : List Value) (st : PState),
    st.counter ≤ (serializeFields env vs st).2.counter ∧
    ∃ Δ, (serializeFields env vs st).2.refs = st.refs ++ Δ ∧
      Δ.map Prod.fst =
        (List.range' st.counter
          ((serializeFields env vs st).2.counter - st.counter)).map mintToken ∧
      blobTokensList (serializeFields env vs st).1 = Δ.map Prod.fst
  | [], st => by
    refine ⟨le_refl _, [], by simp [serializeFields], ?_, by simp [serializeFields, blobTokensList]⟩
    simp [serializeFields]
  | v :: vs, st => by
    obtain ⟨h1, Δ1, e1, m1, b1⟩ := serSpec env v st
    obtain ⟨h2, Δ2, e2, m2, b2⟩ := serSpecList env vs (serializeVal env v st).2
    have hfst : (serializeFields env (v :: vs) st).1
        = (serializeVal env v st).1 :: (serializeFields env vs (serializeVal env v st).2).1 := by
      simp only [serializeFields]
    have hsnd : (serializeFields env (v :: vs) st).2
        = (serializeFields env vs (serializeVal env v st).2).2 := by
      simp only [serializeFields]
    refine ⟨by rw [hsnd]; exact le_trans h1 h2, Δ1 ++ Δ2, ?_, ?_, ?_⟩
    · rw [hsnd, e2, e1, List.append_assoc]
    · rw [hsnd, List.map_append, m1, m2, ← List.map_append,
        range'_glue h1 h2]
    · rw [hfst, blobTokensList, b1, b2, List.map_append]
end

theorem serModel_refs_tokens (env : Env) (c : Nat) (model : Value) :
    (serializeModel env c model).2.refs.map Prod.fst
      = (List.range' c ((serializeModel env c model).2.counter - c)).map mintToken := by
  obtain ⟨h1, Δ, e, m, b⟩ := serSpec env model ⟨c, [], []⟩
  have : (serializeModel env c model).2.refs = Δ := by
    rw [serializeModel, e]; rfl
  rw [this, m]; rfl

theorem serModel_blob_tokens (env : Env) (c : Nat) (model : Value) :
    blobTokens (serializeModel env c model).1
      = (serializeModel env c model).2.refs.map Prod.fst := by
  obtain ⟨h1, Δ, e, m, b⟩ := serSpec env model ⟨c, [], []⟩
  have he : (serializeModel env c model).2.refs = Δ := by
    rw [serializeModel, e]; rfl
  rw [he]
  exact b

theorem serModel_tokens_nodup (env : Env) (c : Nat) (model : Value) :
    ((serializeModel env c model).2.refs.map Prod.fst).Nodup := by
  rw [serModel_refs_tokens]
  exact (List.nodup_range' _ _).map (fun a b h => mintToken_inj h)

theorem serModel_tokens_mint (env : Env) (c : Nat) (model : Value) :
    ∀ r ∈ (serializeModel env c model).2.refs, ∃ m, r.1 = mintToken m ∧ c ≤ m := by
  intro r hr
  have hm : r.1 ∈ (serializeModel env c model).2.refs.map Prod.fst :=
    List.mem_map.mpr ⟨r, hr, rfl⟩
  rw [serModel_refs_tokens] at hm
  obtain ⟨m, hm1, hm2⟩ := List.mem_map.mp hm
  exact ⟨m, hm2.symm, (List.mem_range'_1.mp hm1).1⟩

/-! ### The unpickler inverts the pickler (given a faithful reference map) -/

mutual
theorem sdVal (env : Env) (ρ : List (Name × Value)) :
    ∀ (v : Value) (st : PState),
      (∀ r ∈ (serializeVal env v st).2.refs, lookupD ρ r.1 = some r.2.2) →
      deserializeBlob ρ (serializeVal env v st).1 = .ok v
  | .mk ty fs, st => by
    intro hρ
    match h : getNonPickleIo env (.mk ty fs) with
    | some i =>
      rw [serializeVal_persid st h] at hρ ⊢
      have hr := hρ (mintToken st.counter, i, Value.mk ty fs) (by simp)
      simp only [deserializeBlob, hr]
    | none =>
      rw [serializeVal_node st h] at hρ ⊢
      have hf := sdFields env ρ fs (hookState env (.mk ty fs) st) hρ
      simp only [deserializeBlob, hf]

theorem sdFields (env : Env) (ρ : List (Name × Value)) :
    ∀ (vs : List Value) (st : PState),
      (∀ r ∈ (serializeFields env vs st).2.refs, lookupD ρ r.1 = some r.2.2) →
      deserializeBlobList ρ (serializeFields env vs st).1 = .ok vs
  | [], st => by
    intro _
    simp [serializeFields, deserializeBlobList]
  | v :: vs, st => by
    intro hρ
    have hfst : (serializeFields env (v :: vs) st).1
        = (serializeVal env v st).1
          :: (serializeFields env vs (serializeVal env v st).2).1 := by
      simp only [serializeFields]
    have hsnd : (serializeFields env (v :: vs) st).2
        = (serializeFields env vs (serializeVal env v st).2).2 := by
      simp only [serializeFields]
    rw [hsnd] at hρ
    obtain ⟨h2le, Δ2, e2, hm2, hb2⟩ := serSpecList env vs (serializeVal env v st).2
    have hρ1 : ∀ r ∈ (serializeVal env v st).2.refs, lookupD ρ r.1 = some r.2.2 := by
      intro r hr
      exact hρ r (by rw [e2]; exact List.mem_append_left _ hr)
    have h1 := sdVal env ρ v st hρ1
    have h2 := sdFields env ρ vs (serializeVal env v st).2 hρ
    rw [hfst]
    simp only [deserializeBlobList, h1, h2]
end

/-! ### A successful unpickle binds every token in the stream -/

mutual
theorem deserializeBlob_ok_tokens (ρ : List (Name × Value)) :
    ∀ (b : Blob) (w : Value), deserializeBlob ρ b = .ok w →
      ∀ t ∈ blobTokens b, ∃ v, lookupD ρ t = some v
  | .persid t0, w => by
    intro h t ht
    simp only [blobTokens, List.mem_singleton] at ht
    subst ht
    rcases hl : lookupD ρ t with v | v
    · rw [deserializeBlob, hl] at h
      exact absurd h (by simp)
    · exact ⟨v, rfl⟩

  | .node ty bs, w => by
    intro h t ht
    rcases hbs : deserializeBlobList ρ bs with e | vs
    · rw [deserializeBlob, hbs] at h
      exact absurd h (by simp)
    · exact deserializeBlobList_ok_tokens ρ bs vs hbs t
        (by simpa [blobTokens] using ht)

theorem deserializeBlobList_ok_tokens (ρ : List (Name × Value)) :
    ∀ (bs : List Blob) (ws : List Value), deserializeBlobList ρ bs = .ok ws →
      ∀ t ∈ blobTokensList bs, ∃ v, lookupD ρ t = some v
  | [], ws => by
    intro _ t ht
    simp [blobTokensList] at ht
  | b :: bs, ws => by
    intro h t ht
    rcases hb : deserializeBlob ρ b with e | v
    · rw [deserializeBlobList, hb] at h
      exact absurd h (by simp)
    · rcases hrest : deserializeBlobList ρ bs with e | vs
      · rw [deserializeBlobList, hb, hrest] at h
        exact absurd h (by simp)
      · rcases List.mem_append.mp (by simpa [blobTokensList] using ht) with ht' | ht'
        · exact deserializeBlob_ok_tokens ρ b v hb t ht'
        · exact deserializeBlobList_ok_tokens ρ bs vs hrest t ht'
end

/-! ### Structure of the dumped artifact set -/

theorem rekeyName_right_inj (t : Name) :
    Function.Injective (fun k => rekeyName t k) := by
  intro k k' h
  simp only [rekeyName] at h
  exact List.tail_eq_of_cons_eq (List.append_cancel_left h)

theorem map_rekey_nodup {t : Name} {l : List (Name × Artifact)}
    (h : (l.map Prod.fst).Nodup) :
    (l.map (fun q => rekeyName t q.1)).Nodup := by
  have he : l.map (fun q => rekeyName t q.1)
      = (l.map Prod.fst).map (fun k => rekeyName t k) := by
    rw [List.map_map]; rfl
  rw [he]
  exact h.map (rekeyName_right_inj t)

theorem mem_refBlock_keys {env : Env} {path : Name} {r : Name × Nat × Value}
    {n : Name} :
    n ∈ (refBlock env path r).map Prod.fst ↔
      ((∃ q ∈ (env.codec r.2.1).cdump (pjoin path r.1) r.2.2,
          n = rekeyName r.1 q.1) ∨ n = descName r.1) := by
  rw [refBlock, List.map_append, List.mem_append]
  constructor
  · rintro (h | h)
    · rw [List.map_map, List.mem_map] at h
      obtain ⟨q, hq, he⟩ := h
      exact Or.inl ⟨q, hq, he.symm⟩
    · simp only [List.map_cons, List.map_nil, List.mem_singleton] at h
      exact Or.inr h
  · rintro (⟨q, hq, he⟩ | h)
    · refine Or.inl ?_
      rw [List.map_map, List.mem_map]
      exact ⟨q, hq, he.symm⟩
    · exact Or.inr (by simp [h])

theorem refBlock_keys_nodup {env : Env} {path : Name} {r : Name × Nat × Value}
    (ht : '_' ∉ r.1)
    (hsub : (((env.codec r.2.1).cdump (pjoin path r.1) r.2.2).map Prod.fst).Nodup) :
    ((refBlock env path r).map Prod.fst).Nodup := by
  rw [refBlock, List.map_append, List.nodup_append]
  have he : (((env.codec r.2.1).cdump (pjoin path r.1) r.2.2).map
        (fun q => (rekeyName r.1 q.1, q.2))).map Prod.fst
      = ((env.codec r.2.1).cdump (pjoin path r.1) r.2.2).map
        (fun q => rekeyName r.1 q.1) := by
    rw [List.map_map]; rfl
  rw [he]
  refine ⟨map_rekey_nodup hsub, List.nodup_singleton _, ?_⟩
  intro n hn hn'
  rw [List.mem_map] at hn
  obtain ⟨q, hq, hqe⟩ := hn
  simp only [List.map_cons, List.map_nil, List.mem_singleton] at hn'
  exact descName_ne_rekeyName ht r.1 q.1 (by rw [← hn', ← hqe])

theorem refBlock_keys_disjoint {env : Env} {path : Name}
    {r r' : Name × Nat × Value} (ht : '_' ∉ r.1) (ht' : '_' ∉ r'.1)
    (hne : r.1 ≠ r'.1) :
    ∀ n ∈ (refBlock env path r).map Prod.fst,
      n ∉ (refBlock env path r').map Prod.fst := by
  intro n hn hn'
  rcases mem_refBlock_keys.mp hn with ⟨q, _, he⟩ | he <;>
    rcases mem_refBlock_keys.mp hn' with ⟨q', _, he'⟩ | he'
  · exact hne (rekeyName_inj ht ht' (he.symm.trans he')).1
  · exact descName_ne_rekeyName ht' r.1 q.1 (he'.symm.trans he)
  · exact descName_ne_rekeyName ht r'.1 q'.1 (he.symm.trans he')
  · exact hne (descName_inj (he.symm.trans he'))

theorem rootName_not_mem_refBlock_keys {env : Env} {path : Name}
    {r : Name × Nat × Value} :
    rootName ∉ (refBlock env path r).map Prod.fst := by
  intro h
  rcases mem_refBlock_keys.mp h with ⟨q, _, he⟩ | he
  · exact rootName_ne_rekeyName r.1 q.1 he
  · exact rootName_ne_descName r.1 he

theorem foldl_dictInsert_rekey_fresh (t : Name) :
    ∀ (l : List (Name × Artifact)) (acc : Arts),
      ((l.map Prod.fst).Nodup) →
      (∀ q ∈ l, rekeyName t q.1 ∉ acc.map Prod.fst) →
      l.foldl (fun a q => dictInsert a (rekeyName t q.1) q.2) acc
        = acc ++ l.map (fun q => (rekeyName t q.1, q.2))
  | [], acc, _, _ => by simp
  | q :: l, acc, hnd, hfresh => by
    rw [List.map_cons, List.nodup_cons] at hnd
    have h1 : dictInsert acc (rekeyName t q.1) q.2
        = acc ++ [(rekeyName t q.1, q.2)] :=
      dictInsert_fresh q.2 (hfresh q (List.mem_cons_self _ _))
    have hfresh' : ∀ p ∈ l,
        rekeyName t p.1 ∉ (acc ++ [(rekeyName t q.1, q.2)]).map Prod.fst := by
      intro p hp
      rw [List.map_append, List.mem_append]
      rintro (h | h)
      · exact hfresh p (List.mem_cons_of_mem _ hp) h
      · simp only [List.map_cons, List.map_nil, List.mem_singleton] at h
        have hpq := rekeyName_right_inj t h
        exact hnd.1 (hpq ▸ List.mem_map.mpr ⟨p, hp, rfl⟩)
    rw [List.foldl_cons, h1,
      foldl_dictInsert_rekey_fresh t l (acc ++ [(rekeyName t q.1, q.2)]) hnd.2 hfresh']
    simp

theorem dumpRef_eq_append (env : Env) (path : Name) (arts : Arts)
    (r : Name × Nat × Value) (ht : '_' ∉ r.1)
    (hsub : (((env.codec r.2.1).cdump (pjoin path r.1) r.2.2).map Prod.fst).Nodup)
    (hfresh : ∀ n ∈ (refBlock env path r).map Prod.fst, n ∉ arts.map Prod.fst) :
    dumpRef env path arts r = arts ++ refBlock env path r := by
  rw [dumpRef]
  have hfold := foldl_dictInsert_rekey_fresh r.1
    ((env.codec r.2.1).cdump (pjoin path r.1) r.2.2) arts hsub
    (by
      intro q hq
      exact hfresh (rekeyName r.1 q.1) (mem_refBlock_keys.mpr (Or.inl ⟨q, hq, rfl⟩)))
  rw [hfold, dictInsert_fresh]
  · rw [refBlock, List.append_assoc]
  · rw [List.map_append, List.mem_append]
    rintro (h | h)
    · exact hfresh (descName r.1) (mem_refBlock_keys.mpr (Or.inr rfl)) h
    · rw [List.map_map, List.mem_map] at h
      obtain ⟨q, hq, he⟩ := h
      exact descName_ne_rekeyName ht r.1 q.1 he.symm

theorem dumpFold_spec (env : Env) (path : Name) :
    ∀ (refs : List (Name × Nat × Value)) (arts0 : Arts),
      (refs.map Prod.fst).Nodup →
      (∀ r ∈ refs, ∃ m, r.1 = mintToken m) →
      (∀ r ∈ refs,
        (((env.codec r.2.1).cdump (pjoin path r.1) r.2.2).map Prod.fst).Nodup) →
      (∀ r ∈ refs, ∀ n ∈ (refBlock env path r).map Prod.fst,
        n ∉ arts0.map Prod.fst) →
      (arts0.map Prod.fst).Nodup →
      refs.foldl (dumpRef env path) arts0
          = arts0 ++ (refs.map (refBlock env path)).flatten ∧
      ((refs.foldl (dumpRef env path) arts0).map Prod.fst).Nodup
  | [], arts0, _, _, _, _, hnd0 => by
    refine ⟨by simp, by simpa using hnd0⟩
  | r :: refs, arts0, hnd, hmint, hsub, hfresh, hnd0 => by
    rw [List.map_cons, List.nodup_cons] at hnd
    obtain ⟨m0, hm0⟩ := hmint r (List.mem_cons_self _ _)
    have ht : '_' ∉ r.1 := fun hm => underscore_not_mem_mintToken m0 (hm0 ▸ hm)
    have h1 : dumpRef env path arts0 r = arts0 ++ refBlock env path r :=
      dumpRef_eq_append env path arts0 r ht
        (hsub r (List.mem_cons_self _ _))
        (hfresh r (List.mem_cons_self _ _))
    have hnd1 : ((arts0 ++ refBlock env path r).map Prod.fst).Nodup := by
      rw [List.map_append, List.nodup_append]
      refine ⟨hnd0, refBlock_keys_nodup ht (hsub r (List.mem_cons_self _ _)), ?_⟩
      intro n hn hn'
      exact hfresh r (List.mem_cons_self _ _) n hn' hn
    have hfresh' : ∀ r' ∈ refs, ∀ n ∈ (refBlock env path r').map Prod.fst,
        n ∉ (arts0 ++ refBlock env path r).map Prod.fst := by
      intro r' hr' n hn
      rw [List.map_append, List.mem_append]
      obtain ⟨m', hm'⟩ := hmint r' (List.mem_cons_of_mem _ hr')
      have ht' : '_' ∉ r'.1 := fun hm => underscore_not_mem_mintToken m' (hm' ▸ hm)
      have hne : r'.1 ≠ r.1 := by
        intro he
        exact hnd.1 (he ▸ List.mem_map.mpr ⟨r', hr', rfl⟩)
      rintro (h | h)
      · exact hfresh r' (List.mem_cons_of_mem _ hr') n hn h
      · exact refBlock_keys_disjoint ht' ht hne n hn h
    obtain ⟨ih1, ih2⟩ := dumpFold_spec env path refs (arts0 ++ refBlock env path r)
      hnd.2 (fun r' hr' => hmint r' (List.mem_cons_of_mem _ hr'))
      (fun r' hr' => hsub r' (List.mem_cons_of_mem _ hr')) hfresh' hnd1
    constructor
    · rw [List.foldl_cons, h1, ih1, List.map_cons, List.flatten_cons,
        List.append_assoc]
    · rw [List.foldl_cons, h1]
      exact ih2

theorem dump_refs_ne_nil_arts (env : Env) (c : Nat) (path : Name) (model : Value)
    (hsub : ∀ r ∈ (serializeModel env c model).2.refs,
      (((env.codec r.2.1).cdump (pjoin path r.1) r.2.2).map Prod.fst).Nodup)
    (hne : (serializeModel env c model).2.refs ≠ []) :
    (dump env c path model).1
      = (rootName, ⟨pjoin path rootName, .bytes (serializeModel env c model).1⟩)
          :: ((serializeModel env c model).2.refs.map (refBlock env path)).flatten ∧
      (((dump env c path model).1).map Prod.fst).Nodup := by
  have hlen : ¬((serializeModel env c model).2.refs.length = 0) := by
    simpa [List.length_eq_zero] using hne
  have harts0 : ∀ r ∈ (serializeModel env c model).2.refs,
      ∀ n ∈ (refBlock env path r).map Prod.fst,
        n ∉ (([(rootName,
          ⟨pjoin path rootName, .bytes (serializeModel env c model).1⟩)] : Arts)).map
            Prod.fst := by
    intro r hr n hn hmem
    simp only [List.map_cons, List.map_nil, List.mem_singleton] at hmem
    subst hmem
    exact rootName_not_mem_refBlock_keys hn
  obtain ⟨h1, h2⟩ := dumpFold_spec env path (serializeModel env c model).2.refs
    ([(rootName, ⟨pjoin path rootName, .bytes (serializeModel env c model).1⟩)] : Arts)
    (serModel_tokens_nodup env c model)
    (fun r hr => by
      obtain ⟨m, hm, _⟩ := serModel_tokens_mint env c model r hr
      exact ⟨m, hm⟩)
    hsub harts0 (by simp)
  rw [dump]
  simp only [if_neg hlen]
  exact ⟨by rw [h1]; rfl, h2⟩

/-! ### The load-side partition recovers the dump-side layout -/

theorem classifyName_descName (t : Name) :
    classifyName (descName t) = .descriptor t := by
  rw [classifyName, if_pos (endsWithExt_descName t), dropExt_descName]

theorem classifyName_rekey {t k : Name} (ht : '_' ∉ t)
    (hk : endsWithExt k = false) :
    classifyName (rekeyName t k) = .data t k := by
  rw [classifyName, if_neg (by rw [endsWithExt_rekey hk t]; exact Bool.false_ne_true),
    splitFirstU_rekey ht k]

theorem groupInsert_fresh {G : List (Name × Arts)} {u : Name} (k : Name)
    (a : Artifact) (h : u ∉ G.map Prod.fst) :
    groupInsert G u k a = G ++ [(u, ([(k, a)] : Arts))] := by
  rw [groupInsert, if_neg]
  rw [List.any_eq_true]
  rintro ⟨q, hq, hqe⟩
  exact h (List.mem_map.mpr ⟨q, hq, of_decide_eq_true hqe⟩)

theorem groupInsert_last {G : List (Name × Arts)} {u : Name} {acc : Arts}
    (k : Name) (a : Artifact) (h : u ∉ G.map Prod.fst) :
    groupInsert (G ++ [(u, acc)]) u k a = G ++ [(u, dictInsert acc k a)] := by
  rw [groupInsert, if_pos]
  · rw [List.map_append]
    have hG : G.map (fun q => if q.1 = u then (q.1, dictInsert q.2 k a) else q)
        = G.map id := by
      apply List.map_congr_left
      intro q hq
      rw [if_neg, id_eq]
      intro he
      exact h (he ▸ List.mem_map.mpr ⟨q, hq, rfl⟩)
    rw [hG, List.map_id]
    simp
  · rw [List.any_eq_true]
    exact ⟨(u, acc), by simp, by simp⟩

theorem partStep_skip {env : Env} {root : Artifact} (st : PartSt)
    {p : Name × Artifact} (h : p.2 = root) :
    partStep env root st p = .ok st := by
  rw [partStep, if_pos h]

theorem partStep_data {env : Env} {root : Artifact} {R : List (Name × Nat)}
    {G : List (Name × Arts)} {n : Name} {a : Artifact} (hne : a ≠ root)
    {u s : Name} (hc : classifyName n = .data u s) :
    partStep env root (⟨R, G⟩ : PartSt) (n, a) = .ok ⟨R, groupInsert G u s a⟩ := by
  rw [partStep, if_neg hne, hc]

theorem partStep_desc {env : Env} {root : Artifact} {R : List (Name × Nat)}
    {G : List (Name × Arts)} {n : Name} {a : Artifact} (hne : a ≠ root)
    {u : Name} (hc : classifyName n = .descriptor u) {i : Nat}
    (hd : deserializeIo env.importTable a.content = some i) :
    partStep env root (⟨R, G⟩ : PartSt) (n, a) = .ok ⟨dictInsert R u i, G⟩ := by
  rw [partStep, if_neg hne, hc]
  simp [hd]

theorem part_data_go (env : Env) (root : Artifact) (t : Name) :
    ∀ (sub acc : Arts) (R : List (Name × Nat)) (G : List (Name × Arts)),
      '_' ∉ t →
      (∀ q ∈ sub, endsWithExt q.1 = false ∧ q.2 ≠ root) →
      ((acc ++ sub).map Prod.fst).Nodup →
      t ∉ G.map Prod.fst →
      (sub.map (fun q => (rekeyName t q.1, q.2))).foldlM (partStep env root)
          (⟨R, G ++ [(t, acc)]⟩ : PartSt)
        = .ok ⟨R, G ++ [(t, acc ++ sub)]⟩
  | [], acc, R, G, _, _, _, _ => by
    show Except.ok _ = _
    rw [List.append_nil]
  | (kq, aq) :: sub, acc, R, G, ht, hqs, hnd, hG => by
    obtain ⟨hkq, haq⟩ := hqs (kq, aq) (List.mem_cons_self _ _)
    have hkq' : endsWithExt kq = false := hkq
    have haq' : aq ≠ root := haq
    have hfresh : kq ∉ acc.map Prod.fst := by
      rw [List.map_append, List.nodup_append] at hnd
      intro hm
      have hmem : kq ∈ ((kq, aq) :: sub).map Prod.fst :=
        List.mem_map.mpr ⟨(kq, aq), List.mem_cons_self _ _, rfl⟩
      exact hnd.2.2 hm hmem
    have hstep := @partStep_data env root R (G ++ [(t, acc)])
      (rekeyName t kq) aq haq' t kq (classifyName_rekey ht hkq')
    rw [List.map_cons, List.foldlM_cons, hstep, groupInsert_last kq aq hG,
      dictInsert_fresh aq hfresh]
    show (sub.map (fun q => (rekeyName t q.1, q.2))).foldlM (partStep env root)
        (⟨R, G ++ [(t, acc ++ [(kq, aq)])]⟩ : PartSt)
      = .ok ⟨R, G ++ [(t, acc ++ (kq, aq) :: sub)]⟩
    rw [part_data_go env root t sub (acc ++ [(kq, aq)]) R G ht
      (fun p hp => hqs p (List.mem_cons_of_mem _ hp))
      (by rwa [List.append_assoc, List.singleton_append]) hG,
      List.append_assoc, List.singleton_append]

theorem part_data_start (env : Env) (root : Artifact) (t : Name)
    (sub : Arts) (R : List (Name × Nat)) (G : List (Name × Arts))
    (ht : '_' ∉ t)
    (hqs : ∀ q ∈ sub, endsWithExt q.1 = false ∧ q.2 ≠ root)
    (hnd : (sub.map Prod.fst).Nodup)
    (hG : t ∉ G.map Prod.fst) :
    (sub.map (fun q => (rekeyName t q.1, q.2))).foldlM (partStep env root)
        (⟨R, G⟩ : PartSt)
      = .ok ⟨R, if sub.isEmpty then G else G ++ [(t, sub)]⟩ := by
  match sub, hqs, hnd with
  | [], _, _ => rfl
  | (kq, aq) :: sub, hqs, hnd =>
    obtain ⟨hkq, haq⟩ := hqs (kq, aq) (List.mem_cons_self _ _)
    have hkq' : endsWithExt kq = false := hkq
    have haq' : aq ≠ root := haq
    have hstep := @partStep_data env root R G
      (rekeyName t kq) aq haq' t kq (classifyName_rekey ht hkq')
    rw [List.map_cons, List.foldlM_cons, hstep, groupInsert_fresh kq aq hG]
    show (sub.map (fun q => (rekeyName t q.1, q.2))).foldlM (partStep env root)
        (⟨R, G ++ [(t, [(kq, aq)])]⟩ : PartSt)
      = .ok ⟨R, if ((kq, aq) :: sub).isEmpty then G else G ++ [(t, (kq, aq) :: sub)]⟩
    rw [part_data_go env root t sub [(kq, aq)] R G ht
      (fun p hp => hqs p (List.mem_cons_of_mem _ hp))
      hnd hG]
    rfl

theorem part_block (env : Env) (root : Artifact) (path : Name)
    (r : Name × Nat × Value) (R : List (Name × Nat)) (G : List (Name × Arts))
    (ht : '_' ∉ r.1)
    (hqs : ∀ q ∈ (env.codec r.2.1).cdump (pjoin path r.1) r.2.2,
      endsWithExt q.1 = false ∧ q.2 ≠ root)
    (hnd : (((env.codec r.2.1).cdump (pjoin path r.1) r.2.2).map Prod.fst).Nodup)
    (hdesc_ne : (⟨pjoin path (descName r.1),
      .text (serIoName env r.2.1)⟩ : Artifact) ≠ root)
    (hdesc : deserializeIo env.importTable
      (Payload.text (serIoName env r.2.1)) = some r.2.1)
    (hG : r.1 ∉ G.map Prod.fst) :
    (refBlock env path r).foldlM (partStep env root) (⟨R, G⟩ : PartSt)
      = .ok ⟨dictInsert R r.1 r.2.1,
        if ((env.codec r.2.1).cdump (pjoin path r.1) r.2.2).isEmpty then G
        else G ++ [(r.1, (env.codec r.2.1).cdump (pjoin path r.1) r.2.2)]⟩ := by
  rw [refBlock, List.foldlM_append,
    part_data_start env root r.1 _ R G ht hqs hnd hG]
  have hstep := @partStep_desc env root R
    (if ((env.codec r.2.1).cdump (pjoin path r.1) r.2.2).isEmpty then G
      else G ++ [(r.1, (env.codec r.2.1).cdump (pjoin path r.1) r.2.2)])
    (descName r.1)
    ⟨pjoin path (descName r.1), .text (serIoName env r.2.1)⟩
    hdesc_ne r.1 (classifyName_descName r.1) r.2.1 hdesc
  show (([(descName r.1, ⟨pjoin path (descName r.1),
      .text (serIoName env r.2.1)⟩)] : Arts)).foldlM (partStep env root) _ = _
  rw [List.foldlM_cons, hstep]
  rfl

theorem groupsOf_cons (env : Env) (path : Name) (r : Name × Nat × Value)
    (refs : List (Name × Nat × Value)) :
    groupsOf env path (r :: refs)
      = (if ((env.codec r.2.1).cdump (pjoin path r.1) r.2.2).isEmpty then []
          else [(r.1, (env.codec r.2.1).cdump (pjoin path r.1) r.2.2)])
        ++ groupsOf env path refs := by
  rw [groupsOf, List.filterMap_cons]
  rcases he : ((env.codec r.2.1).cdump (pjoin path r.1) r.2.2).isEmpty with _ | _
  · simp only [he, if_neg Bool.false_ne_true]
    rfl
  · simp only [he, if_pos rfl]
    rfl

theorem groupsOf_keys (env : Env) (path : Name) :
    ∀ (refs : List (Name × Nat × Value)) (u : Name),
      u ∈ (groupsOf env path refs).map Prod.fst → u ∈ refs.map Prod.fst
  | [], u, h => by simp [groupsOf] at h
  | r :: refs, u, h => by
    rw [groupsOf_cons, List.map_append, List.mem_append] at h
    rcases h with h | h
    · rcases he : ((env.codec r.2.1).cdump (pjoin path r.1) r.2.2).isEmpty
      · rw [he, if_neg Bool.false_ne_true] at h
        simp only [List.map_cons, List.map_nil, List.mem_singleton] at h
        exact h ▸ List.mem_map.mpr ⟨r, List.mem_cons_self _ _, rfl⟩
      · rw [he, if_pos rfl] at h
        simp at h
    · exact List.mem_cons_of_mem _ (groupsOf_keys env path refs u h)

theorem part_blocks (env : Env) (root : Artifact) (path : Name) :
    ∀ (refs : List (Name × Nat × Value)) (R : List (Name × Nat))
      (G : List (Name × Arts)),
      (refs.map Prod.fst).Nodup →
      (∀ r ∈ refs, ∃ m, r.1 = mintToken m) →
      (∀ r ∈ refs, ∀ q ∈ (env.codec r.2.1).cdump (pjoin path r.1) r.2.2,
        endsWithExt q.1 = false ∧ q.2 ≠ root) →
      (∀ r ∈ refs,
        (((env.codec r.2.1).cdump (pjoin path r.1) r.2.2).map Prod.fst).Nodup) →
      (∀ r ∈ refs, (⟨pjoin path (descName r.1),
        .text (serIoName env r.2.1)⟩ : Artifact) ≠ root) →
      (∀ r ∈ refs, deserializeIo env.importTable
        (Payload.text (serIoName env r.2.1)) = some r.2.1) →
      (∀ r ∈ refs, r.1 ∉ R.map Prod.fst) →
      (∀ r ∈ refs, r.1 ∉ G.map Prod.fst) →
      ((refs.map (refBlock env path)).flatten).foldlM (partStep env root)
          (⟨R, G⟩ : PartSt)
        = .ok ⟨R ++ refs.map (fun r => (r.1, r.2.1)), G ++ groupsOf env path refs⟩
  | [], R, G, _, _, _, _, _, _, _, _ => by
    show Except.ok _ = _
    rw [List.map_nil, List.append_nil,
      show groupsOf env path [] = [] from rfl, List.append_nil]
  | r :: refs, R, G, hnd, hmint, hqs, hsubnd, hdne, hdio, hR, hG => by
    rw [List.map_cons, List.nodup_cons] at hnd
    obtain ⟨m0, hm0⟩ := hmint r (List.mem_cons_self _ _)
    have ht : '_' ∉ r.1 := fun hm => underscore_not_mem_mintToken m0 (hm0 ▸ hm)
    rw [List.map_cons, List.flatten_cons, List.foldlM_append,
      part_block env root path r R G ht
        (hqs r (List.mem_cons_self _ _))
        (hsubnd r (List.mem_cons_self _ _))
        (hdne r (List.mem_cons_self _ _))
        (hdio r (List.mem_cons_self _ _))
        (hG r (List.mem_cons_self _ _)),
      dictInsert_fresh r.2.1 (hR r (List.mem_cons_self _ _))]
    have hR' : ∀ r' ∈ refs, r'.1 ∉ (R ++ [(r.1, r.2.1)]).map Prod.fst := by
      intro r' hr'
      rw [List.map_append, List.mem_append]
      rintro (h | h)
      · exact hR r' (List.mem_cons_of_mem _ hr') h
      · simp only [List.map_cons, List.map_nil, List.mem_singleton] at h
        exact hnd.1 (h ▸ List.mem_map.mpr ⟨r', hr', rfl⟩)
    have hG' : ∀ r' ∈ refs, r'.1 ∉
        ((if ((env.codec r.2.1).cdump (pjoin path r.1) r.2.2).isEmpty then G
          else G ++ [(r.1, (env.codec r.2.1).cdump (pjoin path r.1) r.2.2)])).map
          Prod.fst := by
      intro r' hr'
      rcases he : ((env.codec r.2.1).cdump (pjoin path r.1) r.2.2).isEmpty
      · rw [if_neg Bool.false_ne_true, List.map_append, List.mem_append]
        rintro (h | h)
        · exact hG r' (List.mem_cons_of_mem _ hr') h
        · simp only [List.map_cons, List.map_nil, List.mem_singleton] at h
          exact hnd.1 (h ▸ List.mem_map.mpr ⟨r', hr', rfl⟩)
      · rw [if_pos rfl]
        exact hG r' (List.mem_cons_of_mem _ hr')
    have hrec := part_blocks env root path refs (R ++ [(r.1, r.2.1)])
      (if ((env.codec r.2.1).cdump (pjoin path r.1) r.2.2).isEmpty then G
        else G ++ [(r.1, (env.codec r.2.1).cdump (pjoin path r.1) r.2.2)])
      hnd.2
      (fun r' hr' => hmint r' (List.mem_cons_of_mem _ hr'))
      (fun r' hr' => hqs r' (List.mem_cons_of_mem _ hr'))
      (fun r' hr' => hsubnd r' (List.mem_cons_of_mem _ hr'))
      (fun r' hr' => hdne r' (List.mem_cons_of_mem _ hr'))
      (fun r' hr' => hdio r' (List.mem_cons_of_mem _ hr'))
      hR' hG'
    show ((refs.map (refBlock env path)).flatten).foldlM (partStep env root) _ = _
    rw [hrec, groupsOf_cons]
    rcases he : ((env.codec r.2.1).cdump (pjoin path r.1) r.2.2).isEmpty
    · rw [if_neg Bool.false_ne_true, if_neg Bool.false_ne_true,
        List.map_cons, List.append_assoc, List.singleton_append,
        List.append_assoc, List.singleton_append]
    · rw [if_pos rfl, if_pos rfl, List.map_cons, List.append_assoc,
        List.singleton_append, List.nil_append]

theorem lookupD_groupsOf (env : Env) (path : Name) :
    ∀ (refs : List (Name × Nat × Value)), (refs.map Prod.fst).Nodup →
      ∀ r ∈ refs, (lookupD (groupsOf env path refs) r.1).getD ([] : Arts)
        = (env.codec r.2.1).cdump (pjoin path r.1) r.2.2
  | [], _, r, hr => by simp at hr
  | x :: refs, hnd, r, hr => by
    rw [List.map_cons, List.nodup_cons] at hnd
    rw [groupsOf_cons]
    rcases List.mem_cons.mp hr with hr | hr
    · subst hr
      rcases he : ((env.codec r.2.1).cdump (pjoin path r.1) r.2.2).isEmpty
      · rw [if_neg Bool.false_ne_true, List.singleton_append,
          lookupD_cons_self]
        rfl
      · rw [if_pos rfl, List.nil_append]
        have hnot : r.1 ∉ (groupsOf env path refs).map Prod.fst := by
          intro h
          exact hnd.1 (groupsOf_keys env path refs r.1 h)
        rw [lookupD_eq_none hnot]
        rw [List.isEmpty_iff] at he
        rw [he]
        rfl
    · have hne : ¬(x.1 = r.1) := by
        intro he
        exact hnd.1 (he ▸ List.mem_map.mpr ⟨r, hr, rfl⟩)
      rcases he : ((env.codec x.2.1).cdump (pjoin path x.1) x.2.2).isEmpty
      · rw [if_neg Bool.false_ne_true, List.singleton_append, lookupD,
          if_neg hne]
        exact lookupD_groupsOf env path refs hnd.2 r hr
      · rw [if_pos rfl, List.nil_append]
        exact lookupD_groupsOf env path refs hnd.2 r hr

theorem loadRefStep_some {env : Env} {G : List (Name × Arts)}
    {acc : List (Name × Value)} {q : Name × Nat} {v : Value}
    (h : (env.codec q.2).cload ((lookupD G q.1).getD ([] : Arts)) = some v) :
    loadRefStep env G acc q = .ok (dictInsert acc q.1 v) := by
  rw [loadRefStep, h]

theorem loadRefs_go (env : Env) (G : List (Name × Arts)) :
    ∀ (refs : List (Name × Nat × Value)) (acc : List (Name × Value)),
      (refs.map Prod.fst).Nodup →
      (∀ r ∈ refs,
        (env.codec r.2.1).cload ((lookupD G r.1).getD ([] : Arts)) = some r.2.2) →
      (∀ r ∈ refs, r.1 ∉ acc.map Prod.fst) →
      List.foldlM (loadRefStep env G) acc (refs.map (fun r => (r.1, r.2.1)))
        = .ok (acc ++ refs.map (fun r => (r.1, r.2.2)))
  | [], acc, _, _, _ => by
    show Except.ok _ = _
    rw [List.map_nil, List.append_nil]
  | r :: refs, acc, hnd, hload, hacc => by
    rw [List.map_cons, List.nodup_cons] at hnd
    rw [List.map_cons, List.foldlM_cons]
    have hl := hload r (List.mem_cons_self _ _)
    rw [loadRefStep_some hl]
    show List.foldlM _ (dictInsert acc r.1 r.2.2) _ = _
    rw [dictInsert_fresh r.2.2 (hacc r (List.mem_cons_self _ _))]
    have hacc' : ∀ r' ∈ refs, r'.1 ∉ (acc ++ [(r.1, r.2.2)]).map Prod.fst := by
      intro r' hr'
      rw [List.map_append, List.mem_append]
      rintro (h | h)
      · exact hacc r' (List.mem_cons_of_mem _ hr') h
      · simp only [List.map_cons, List.map_nil, List.mem_singleton] at h
        exact hnd.1 (h ▸ List.mem_map.mpr ⟨r', hr', rfl⟩)
    rw [loadRefs_go env G refs (acc ++ [(r.1, r.2.2)]) hnd.2
      (fun r' hr' => hload r' (List.mem_cons_of_mem _ hr')) hacc',
      List.map_cons, List.append_assoc, List.singleton_append]

/-! ### Claim theorems -/

/-- Claim C1: for every value — plain leaf values, values with one
intercepted sub-value, with several intercepted sub-values at different
depths, or with an intercepted sub-value whose own codec handles further
nested structure — loading the artifact set produced by dumping the value
(`PickleModelIO.load` after `PickleModelIO.dump`) returns the value itself
(structural equality, which entails behavioural equivalence), provided each
intercepted reference satisfies the codec contract `RefOK` (unique,
non-descriptor-suffixed artifact names, opaque payloads, resolvable
identity, and `load` inverting `dump`). -/
theorem claim_C1 (env : Env) (c : Nat) (path : Name) (model : Value)
    (H : ∀ r ∈ (serializeModel env c model).2.refs, RefOK env path r) :
    load env (dump env c path model).1 = .ok model := by
  rcases hrefs : (serializeModel env c model).2.refs with _ | ⟨r0, rest⟩
  · have hdump : (dump env c path model).1
        = ([(rootName, ⟨path, .bytes (serializeModel env c model).1⟩)] : Arts) := by
      rw [dump, if_pos (by rw [hrefs]; rfl)]
    rw [hdump]
    have hlook : lookupD ([(rootName,
        (⟨path, .bytes (serializeModel env c model).1⟩ : Artifact))] : Arts) rootName
        = some ⟨path, .bytes (serializeModel env c model).1⟩ :=
      lookupD_cons_self _ _ _
    simp only [load, hlook]
    rw [if_neg (by simp)]
    show deserializeBlob [] (serializeModel env c model).1 = .ok model
    apply sdVal env [] model ⟨c, [], []⟩
    intro r hr
    have : r ∈ (serializeModel env c model).2.refs := hr
    rw [hrefs] at this
    simp at this
  · -- at least one reference: the multiplexed layout
    have hne : (serializeModel env c model).2.refs ≠ [] := by
      rw [hrefs]; exact List.cons_ne_nil _ _
    obtain ⟨harts, hnodup⟩ := dump_refs_ne_nil_arts env c path model
      (fun r hr => (H r hr).1) hne
    set blob := (serializeModel env c model).1 with hblob
    set refs := (serializeModel env c model).2.refs with hrefsdef
    set rootArt : Artifact := ⟨pjoin path rootName, .bytes blob⟩ with hroot
    rw [harts]
    have hlook : lookupD ((rootName, rootArt)
        :: (refs.map (refBlock env path)).flatten) rootName = some rootArt :=
      lookupD_cons_self _ _ _
    have hflat_ne : ((refs.map (refBlock env path)).flatten) ≠ [] := by
      rw [hrefs, List.map_cons, List.flatten_cons, refBlock]
      intro hx
      rcases List.append_eq_nil.mp hx with ⟨h1, _⟩
      rcases List.append_eq_nil.mp h1 with ⟨_, h4⟩
      exact List.cons_ne_nil _ _ h4
    have hgt : 1 < List.length ((rootName, rootArt)
        :: (refs.map (refBlock env path)).flatten) := by
      rw [List.length_cons]
      have := List.length_pos.mpr hflat_ne
      omega
    -- conditions on the references
    have hmint : ∀ r ∈ refs, ∃ m, r.1 = mintToken m := by
      intro r hr
      obtain ⟨m, hm, _⟩ := serModel_tokens_mint env c model r hr
      exact ⟨m, hm⟩
    have hqs : ∀ r ∈ refs, ∀ q ∈ (env.codec r.2.1).cdump (pjoin path r.1) r.2.2,
        endsWithExt q.1 = false ∧ q.2 ≠ rootArt := by
      intro r hr q hq
      obtain ⟨he, w, hw⟩ := (H r hr).2.1 q hq
      refine ⟨he, ?_⟩
      intro heq
      rw [heq] at hw
      rw [hroot] at hw
      simp at hw
    have hdne : ∀ r ∈ refs, (⟨pjoin path (descName r.1),
        .text (serIoName env r.2.1)⟩ : Artifact) ≠ rootArt := by
      intro r hr heq
      have hco := congrArg Artifact.content heq
      rw [hroot] at hco
      simp at hco
    have hpart : partitionArts env rootArt ((rootName, rootArt)
        :: (refs.map (refBlock env path)).flatten)
        = .ok ⟨refs.map (fun r => (r.1, r.2.1)), groupsOf env path refs⟩ := by
      rw [partitionArts, List.foldlM_cons,
        @partStep_skip env rootArt (⟨[], []⟩ : PartSt)
          (rootName, rootArt) rfl]
      show ((refs.map (refBlock env path)).flatten).foldlM
        (partStep env rootArt) (⟨[], []⟩ : PartSt) = _
      rw [part_blocks env rootArt path refs [] []
        (serModel_tokens_nodup env c model) hmint hqs
        (fun r hr => (H r hr).1) hdne
        (fun r hr => (H r hr).2.2.1)
        (fun r hr => by simp) (fun r hr => by simp)]
      rw [List.nil_append, List.nil_append]
    have hload : loadRefs env (groupsOf env path refs)
        (refs.map (fun r => (r.1, r.2.1)))
        = .ok (refs.map (fun r => (r.1, r.2.2))) := by
      rw [loadRefs]
      have := loadRefs_go env (groupsOf env path refs) refs []
        (serModel_tokens_nodup env c model)
        (fun r hr => by
          rw [lookupD_groupsOf env path refs
            (serModel_tokens_nodup env c model) r hr]
          exact (H r hr).2.2.2)
        (fun r hr => by simp)
      rw [this, List.nil_append]
    simp only [load, hlook]
    rw [if_pos hgt, hpart]
    show (match loadRefs env (groupsOf env path refs)
        (refs.map (fun r => (r.1, r.2.1))) with
      | .error e => (.error e : Except LoadErr Value)
      | .ok refs' =>
        match rootArt.content with
        | .bytes b => deserializeBlob refs' b
        | _ => .error .badPickle) = .ok model
    rw [hload]
    show deserializeBlob (refs.map (fun r => (r.1, r.2.2))) blob = .ok model
    apply sdVal env (refs.map (fun r => (r.1, r.2.2))) model ⟨c, [], []⟩
    intro r hr
    have hmem : (r.1, r.2.2) ∈ refs.map (fun r => (r.1, r.2.2)) :=
      List.mem_map.mpr ⟨r, hr, rfl⟩
    have hkeys : ((refs.map (fun r => (r.1, r.2.2))).map Prod.fst).Nodup := by
      have he : (refs.map (fun r => (r.1, r.2.2))).map Prod.fst
          = refs.map Prod.fst := by
        rw [List.map_map]; rfl
      rw [he]
      exact serModel_tokens_nodup env c model
    exact lookupD_of_mem_nodup hkeys hmem

theorem testCodec_refOK (v : Value) (tok : Name) :
    RefOK testEnv ['r'] (tok, 5, v) := by
  refine ⟨?_, ?_, ?_, ?_⟩
  · exact List.nodup_singleton _
  · intro q hq
    have hq' : q ∈ ([((['w'] : Name),
        (⟨pjoin (pjoin ['r'] tok) ['w'], Payload.val v⟩ : Artifact))] : Arts) := hq
    rw [List.mem_singleton] at hq'
    subst hq'
    refine ⟨?_, v, rfl⟩
    show endsWithExt ['w'] = false
    decide
  · rfl
  · rfl

/-- Witness for claim C1: the concrete multi-reference value `vMulti`
round-trips through `dump` and `load` in the concrete environment. -/
theorem claim_C1_witness :
    load testEnv (dump testEnv 0 ['r'] vMulti).1 = .ok vMulti :=
  claim_C1 testEnv 0 ['r'] vMulti (by
    intro r hr
    have hrefs : (serializeModel testEnv 0 vMulti).2.refs
        = [(mintToken 0, 5, Value.mk 7 []),
           (mintToken 1, 5, Value.mk 7 [Value.mk 9 []])] := rfl
    rw [hrefs] at hr
    rcases List.mem_cons.mp hr with h | hr
    · subst h
      exact testCodec_refOK _ _
    · rcases List.mem_cons.mp hr with h | hr
      · subst h
        exact testCodec_refOK _ _
      · simp at hr)

/-- Claim C2: dumping a value whose generic pass intercepts nothing (the
reference table is empty) writes the root blob as a single artifact stored
directly at the target path, and the returned artifact set has exactly one
entry, keyed by the reserved root name `"data.pkl"` — no directory-like
namespace (`path/...`) is created. -/
theorem claim_C2 (env : Env) (c : Nat) (path : Name) (model : Value)
    (h : (serializeModel env c model).2.refs = []) :
    dump env c path model
      = (([(rootName, ⟨path, .bytes (serializeModel env c model).1⟩)] : Arts),
         (serializeModel env c model).2.counter) := by
  rw [dump, if_pos (by rw [h]; rfl)]

/-- Witness for claim C2 at the concrete plain value `vPlain`. -/
theorem claim_C2_witness :
    (serializeModel testEnv 0 vPlain).2.refs = [] ∧
    dump testEnv 0 ['r'] vPlain
      = (([(rootName, ⟨['r'], .bytes (serializeModel testEnv 0 vPlain).1⟩)] : Arts),
         (serializeModel testEnv 0 vPlain).2.counter) :=
  ⟨rfl, claim_C2 testEnv 0 ['r'] vPlain rfl⟩

theorem sum_map_succ {α : Type} (f : α → Nat) :
    ∀ l : List α, (l.map (fun x => f x + 1)).sum = (l.map f).sum + l.length
  | [] => rfl
  | x :: l => by
    rw [List.map_cons, List.sum_cons, List.map_cons, List.sum_cons,
      sum_map_succ f l, List.length_cons]
    omega

/-- Claim C7: a dump with `N` reference-table entries, entry `i` of which
produces `Mi` artifacts from its own codec, returns an artifact set with
exactly `1 + N + Σ Mi` entries whose names are pairwise distinct (the root
artifact, one descriptor per token, and the token-prefixed data artifacts);
the sub-codec contract needed is only that each codec's own artifact names
are unique (they form a Python dict). -/
theorem claim_C7 (env : Env) (c : Nat) (path : Name) (model : Value)
    (H : ∀ r ∈ (serializeModel env c model).2.refs,
      (((env.codec r.2.1).cdump (pjoin path r.1) r.2.2).map Prod.fst).Nodup) :
    (((dump env c path model).1).map Prod.fst).Nodup ∧
    List.length (dump env c path model).1
      = 1 + (serializeModel env c model).2.refs.length
        + ((serializeModel env c model).2.refs.map
            (fun r => List.length
              ((env.codec r.2.1).cdump (pjoin path r.1) r.2.2))).sum := by
  rcases hrefs : (serializeModel env c model).2.refs with _ | ⟨r0, rest⟩
  · have hdump : (dump env c path model).1
        = ([(rootName, ⟨path, .bytes (serializeModel env c model).1⟩)] : Arts) := by
      rw [dump, if_pos (by rw [hrefs]; rfl)]
    rw [hdump]
    exact ⟨List.nodup_singleton _, rfl⟩
  · have hne : (serializeModel env c model).2.refs ≠ [] := by
      rw [hrefs]; exact List.cons_ne_nil _ _
    obtain ⟨harts, hnodup⟩ := dump_refs_ne_nil_arts env c path model H hne
    refine ⟨hnodup, ?_⟩
    rw [← hrefs]
    rw [harts, List.length_cons, List.length_flatten, List.map_map]
    have he : (List.length ∘ refBlock env path)
        = fun r : Name × Nat × Value =>
          List.length ((env.codec r.2.1).cdump (pjoin path r.1) r.2.2) + 1 := by
      funext r
      show (refBlock env path r).length = _
      rw [refBlock, List.length_append, List.length_map, List.length_cons,
        List.length_nil]
    rw [he, sum_map_succ]
    omega

/-- Witness for claim C7: the concrete dump of `vMulti` has
`1 + 2 + (1 + 1) = 5` distinctly named artifacts. -/
theorem claim_C7_witness :
    (((dump testEnv 0 ['r'] vMulti).1).map Prod.fst).Nodup ∧
    List.length (dump testEnv 0 ['r'] vMulti).1
      = 1 + (serializeModel testEnv 0 vMulti).2.refs.length
        + ((serializeModel testEnv 0 vMulti).2.refs.map
            (fun r => List.length
              ((testEnv.codec r.2.1).cdump (pjoin ['r'] r.1) r.2.2))).sum :=
  claim_C7 testEnv 0 ['r'] vMulti (by
    intro r hr
    exact List.nodup_singleton _)

/-! ### Corruption detection: removing a descriptor breaks load -/

theorem descName_dropExt_of_ends {n : Name} (h : endsWithExt n = true) :
    descName (dropExt n) = n := by
  have hsuf : ioExt <:+ n := List.isSuffixOf_iff_suffix.mp h
  obtain ⟨u, hu⟩ := hsuf
  have hlen : List.length n - List.length ioExt = u.length := by
    rw [← hu, List.length_append]
    omega
  rw [dropExt, hlen, ← hu, List.take_left, descName]

theorem classifyName_descriptor_inv {n u : Name}
    (h : classifyName n = .descriptor u) : descName u = n := by
  rw [classifyName] at h
  rcases he : endsWithExt n with _ | _
  · rw [he] at h
    simp only [Bool.false_eq_true, if_false] at h
    rcases hs : splitFirstU n with _ | p
    · rw [hs] at h
      exact absurd h (by simp)
    · rw [hs] at h
      exact absurd h (by simp)
  · rw [he, if_pos rfl] at h
    have hu : u = dropExt n := by
      injection h with h'
      exact h'.symm
    rw [hu]
    exact descName_dropExt_of_ends he

theorem dictInsert_keys_sub {κ α : Type} [DecidableEq κ] {d : List (κ × α)}
    {k : κ} {v : α} {k' : κ} (h : k' ∈ (dictInsert d k v).map Prod.fst) :
    k' ∈ d.map Prod.fst ∨ k' = k := by
  rw [dictInsert] at h
  split at h
  · have he : (d.map (fun q => if q.1 = k then (k, v) else q)).map Prod.fst
        = d.map Prod.fst := by
      rw [List.map_map]
      apply List.map_congr_left
      intro q _
      by_cases hq : q.1 = k
      · show (if q.1 = k then (k, v) else q).1 = q.1
        rw [if_pos hq, hq]
      · show (if q.1 = k then (k, v) else q).1 = q.1
        rw [if_neg hq]
    rw [he] at h
    exact Or.inl h
  · rw [List.map_append, List.mem_append] at h
    rcases h with h | h
    · exact Or.inl h
    · simp only [List.map_cons, List.map_nil, List.mem_singleton] at h
      exact Or.inr h

theorem partStep_ok_refIos_keys {env : Env} {root : Artifact} {st : PartSt}
    {p : Name × Artifact} {st' : PartSt}
    (h : partStep env root st p = .ok st') :
    ∀ u ∈ st'.refIos.map Prod.fst,
      u ∈ st.refIos.map Prod.fst ∨ descName u = p.1 := by
  intro u hu
  rw [partStep] at h
  by_cases hroot : p.2 = root
  · rw [if_pos hroot] at h
    injection h with h'
    rw [← h'] at hu
    exact Or.inl hu
  · rw [if_neg hroot] at h
    rcases hc : classifyName p.1 with u' | ⟨u', s⟩ | _
    · rw [hc] at h
      rcases hd : deserializeIo env.importTable p.2.content with _ | i
      · rw [hd] at h
        exact absurd h (by simp)
      · rw [hd] at h
        injection h with h'
        rw [← h'] at hu
        rcases dictInsert_keys_sub hu with hin | hin
        · exact Or.inl hin
        · exact Or.inr (hin ▸ classifyName_descriptor_inv hc)
    · rw [hc] at h
      injection h with h'
      rw [← h'] at hu
      exact Or.inl hu
    · rw [hc] at h
      exact absurd h (by simp)

theorem partition_ok_desc_present (env : Env) (root : Artifact) :
    ∀ (arts : Arts) (st pst : PartSt),
      arts.foldlM (partStep env root) st = .ok pst →
      ∀ u ∈ pst.refIos.map Prod.fst,
        u ∈ st.refIos.map Prod.fst ∨ descName u ∈ arts.map Prod.fst
  | [], st, pst, h, u, hu => by
    have h' : st = pst := by
      injection h
    rw [← h'] at hu
    exact Or.inl hu
  | p :: arts, st, pst, h, u, hu => by
    rw [List.foldlM_cons] at h
    rcases hstep : partStep env root st p with e | st'
    · rw [hstep] at h
      exact Except.noConfusion h
    · rw [hstep] at h
      have h' : List.foldlM (partStep env root) st' arts = .ok pst := h
      rcases partition_ok_desc_present env root arts st' pst h' u hu with hin | hin
      · rcases partStep_ok_refIos_keys hstep u hin with hin' | hin'
        · exact Or.inl hin'
        · exact Or.inr (by rw [List.map_cons]; exact hin' ▸ List.mem_cons_self _ _)
      · exact Or.inr (List.mem_cons_of_mem _ hin)

theorem loadRefStep_none {env : Env} {G : List (Name × Arts)}
    {acc : List (Name × Value)} {q : Name × Nat}
    (h : (env.codec q.2).cload ((lookupD G q.1).getD ([] : Arts)) = none) :
    loadRefStep env G acc q = .error (.codecLoadFailed q.1) := by
  rw [loadRefStep, h]

theorem loadRefs_ok_keys (env : Env) (G : List (Name × Arts)) :
    ∀ (ios : List (Name × Nat)) (acc ρ : List (Name × Value)),
      List.foldlM (loadRefStep env G) acc ios = .ok ρ →
      ∀ k ∈ ρ.map Prod.fst, k ∈ acc.map Prod.fst ∨ k ∈ ios.map Prod.fst
  | [], acc, ρ, h, k, hk => by
    have h' : acc = ρ := by injection h
    rw [← h'] at hk
    exact Or.inl hk
  | q :: ios, acc, ρ, h, k, hk => by
    rw [List.foldlM_cons] at h
    rcases hl : (env.codec q.2).cload ((lookupD G q.1).getD ([] : Arts)) with _ | v
    · rw [loadRefStep_none hl] at h
      exact Except.noConfusion h
    · rw [loadRefStep_some hl] at h
      have h' : List.foldlM (loadRefStep env G)
          (dictInsert acc q.1 v) ios = .ok ρ := h
      rcases loadRefs_ok_keys env G ios (dictInsert acc q.1 v) ρ h' k hk with hin | hin
      · rcases dictInsert_keys_sub hin with hin' | hin'
        · exact Or.inl hin'
        · exact Or.inr (by rw [List.map_cons]; exact hin' ▸ List.mem_cons_self _ _)
      · exact Or.inr (List.mem_cons_of_mem _ hin)

theorem removeKey_not_mem (d : Arts) (k : Name) :
    k ∉ (removeKey d k).map Prod.fst := by
  intro h
  rw [removeKey] at h
  obtain ⟨q, hq, he⟩ := List.mem_map.mp h
  have := List.of_mem_filter hq
  rw [he] at this
  simp at this

theorem removeKey_cons_of_ne {x : Name × Artifact} {k : Name} (d : Arts)
    (h : ¬(x.1 = k)) : removeKey (x :: d) k = x :: removeKey d k := by
  rw [removeKey, removeKey, List.filter_cons_of_pos]
  simp [h]

/-- Claim C3: in an artifact set produced by a dump with at least one
intercepted sub-value, removing the descriptor artifact of any token and
then loading raises an error (the token is always referenced by the root
bytes, and the reconstruction map ends up missing it); moreover the
resolver itself (`persistent_load`, i.e. `self.refs[pid]`) fails with the
token's `KeyError` on any token absent from the resolution map, so load
never silently substitutes a partial or default value. -/
theorem claim_C3 (env : Env) (c : Nat) (path : Name) (model : Value)
    (r0 : Name × Nat × Value)
    (hr0 : r0 ∈ (serializeModel env c model).2.refs)
    (H : ∀ r ∈ (serializeModel env c model).2.refs, RefOK env path r) :
    (∃ e, load env
      (removeKey (dump env c path model).1 (descName r0.1)) = .error e) ∧
    (∀ (ρ : List (Name × Value)) (t : Name), lookupD ρ t = none →
      deserializeBlob ρ (.persid t) = .error (.missingToken t)) := by
  constructor
  · have hne : (serializeModel env c model).2.refs ≠ [] := by
      intro h
      rw [h] at hr0
      simp at hr0
    obtain ⟨harts, hnodup⟩ := dump_refs_ne_nil_arts env c path model
      (fun r hr => (H r hr).1) hne
    set blob := (serializeModel env c model).1 with hblob
    set refs := (serializeModel env c model).2.refs with hrefsdef
    set rootArt : Artifact := ⟨pjoin path rootName, .bytes blob⟩ with hroot
    have hroot_ne : ¬((rootName, rootArt).1 = descName r0.1) :=
      rootName_ne_descName r0.1
    have hreduced : removeKey (dump env c path model).1 (descName r0.1)
        = (rootName, rootArt)
          :: removeKey ((refs.map (refBlock env path)).flatten) (descName r0.1) := by
      rw [harts, removeKey_cons_of_ne _ hroot_ne]
    rw [hreduced]
    have htok : r0.1 ∈ blobTokens blob := by
      rw [serModel_blob_tokens]
      exact List.mem_map.mpr ⟨r0, hr0, rfl⟩
    have hdesc_not : descName r0.1 ∉ ((rootName, rootArt)
        :: removeKey ((refs.map (refBlock env path)).flatten)
            (descName r0.1)).map Prod.fst := by
      intro h
      rw [List.map_cons, List.mem_cons] at h
      rcases h with h | h
      · exact hroot_ne h.symm
      · exact removeKey_not_mem _ _ h
    have hlook : lookupD ((rootName, rootArt)
        :: removeKey ((refs.map (refBlock env path)).flatten) (descName r0.1))
        rootName = some rootArt := lookupD_cons_self _ _ _
    simp only [load, hlook]
    by_cases hlen : 1 < List.length ((rootName, rootArt)
        :: removeKey ((refs.map (refBlock env path)).flatten) (descName r0.1))
    · rw [if_pos hlen]
      rcases hpart : partitionArts env rootArt ((rootName, rootArt)
          :: removeKey ((refs.map (refBlock env path)).flatten) (descName r0.1))
          with e | pst
      · exact ⟨e, rfl⟩
      · show ∃ e, (match loadRefs env pst.groups pst.refIos with
            | .error e => (.error e : Except LoadErr Value)
            | .ok refs' => deserializeBlob refs' blob) = .error e
        rcases hload : loadRefs env pst.groups pst.refIos with e | ρ
        · exact ⟨e, rfl⟩
        · have hnotin : r0.1 ∉ ρ.map Prod.fst := by
            intro hin
            rw [loadRefs] at hload
            rcases loadRefs_ok_keys env pst.groups pst.refIos [] ρ hload r0.1 hin
              with h | h
            · simp at h
            · rw [partitionArts] at hpart
              rcases partition_ok_desc_present env rootArt _ ⟨[], []⟩ pst hpart
                r0.1 h with h' | h'
              · simp at h'
              · exact hdesc_not h'
          have hlooknone : lookupD ρ r0.1 = none := lookupD_eq_none hnotin
          show ∃ e, deserializeBlob ρ blob = .error e
          rcases hd : deserializeBlob ρ blob with e | w
          · exact ⟨e, rfl⟩
          · obtain ⟨v, hv⟩ := deserializeBlob_ok_tokens ρ blob w hd r0.1 htok
            rw [hlooknone] at hv
            exact absurd hv (by simp)
    · rw [if_neg hlen]
      show ∃ e, deserializeBlob ([] : List (Name × Value)) blob = .error e
      rcases hd : deserializeBlob ([] : List (Name × Value)) blob with e | w
      · exact ⟨e, rfl⟩
      · obtain ⟨v, hv⟩ := deserializeBlob_ok_tokens [] blob w hd r0.1 htok
        exact absurd hv (by simp [lookupD])
  · intro ρ t h
    rw [deserializeBlob, h]

/-- Witness for claim C3: removing the descriptor of the single reference of
`vOne` makes load fail, concretely. -/
theorem claim_C3_witness :
    (∃ e, load testEnv
      (removeKey (dump testEnv 0 ['r'] vOne).1
        (descName (mintToken 0, 5, Value.mk 7 []).1)) = .error e) ∧
    (∀ (ρ : List (Name × Value)) (t : Name), lookupD ρ t = none →
      deserializeBlob ρ (.persid t) = .error (.missingToken t)) :=
  claim_C3 testEnv 0 ['r'] vOne (mintToken 0, 5, Value.mk 7 [])
    (by
      have hrefs : (serializeModel testEnv 0 vOne).2.refs
          = [(mintToken 0, 5, Value.mk 7 [])] := rfl
      rw [hrefs]
      exact List.mem_cons_self _ _)
    (by
      intro r hr
      have hrefs : (serializeModel testEnv 0 vOne).2.refs
          = [(mintToken 0, 5, Value.mk 7 [])] := rfl
      rw [hrefs] at hr
      rw [List.mem_singleton] at hr
      subst hr
      exact testCodec_refOK _ _)

/-! ### The known-types guard and the analyzer log -/

mutual
theorem serLogVal (env : Env) : ∀ (v : Value) (st : PState),
    ∀ w ∈ (serializeVal env v st).2.analyzed,
      w ∈ st.analyzed ∨ analyzeInvoked env w = true
  | .mk ty fs, st => by
    intro w hw
    have hhook : ∀ w', w' ∈ (hookState env (.mk ty fs) st).analyzed →
        w' ∈ st.analyzed ∨ analyzeInvoked env w' = true := by
      intro w' hw'
      rw [hookState] at hw'
      split at hw'
      case isTrue hinv =>
        rcases List.mem_append.mp hw' with h' | h'
        · exact Or.inl h'
        · rw [List.mem_singleton] at h'
          subst h'
          exact Or.inr hinv
      case isFalse => exact Or.inl hw'
    match h : getNonPickleIo env (.mk ty fs) with
    | some i =>
      rw [serializeVal_persid st h] at hw
      exact hhook w hw
    | none =>
      rw [serializeVal_node st h] at hw
      rcases serLogFields env fs (hookState env (.mk ty fs) st) w hw with h' | h'
      · exact hhook w h'
      · exact Or.inr h'

theorem serLogFields (env : Env) : ∀ (vs : List Value) (st : PState),
    ∀ w ∈ (serializeFields env vs st).2.analyzed,
      w ∈ st.analyzed ∨ analyzeInvoked env w = true
  | [], st => by
    intro w hw
    exact Or.inl hw
  | v :: vs, st => by
    intro w hw
    have hw2 : w ∈ (serializeFields env vs (serializeVal env v st).2).2.analyzed := hw
    rcases serLogFields env vs (serializeVal env v st).2 w hw2 with h' | h'
    · exact serLogVal env v st w h'
    · exact Or.inr h'
end

/-- Claim C4: a sub-value whose runtime type is outside the known-types set
(the union of `valid_types` over registered non-callable hooks, computed at
pickler construction) never reaches `ModelAnalyzer.analyze`: the guard is
false, `_get_non_pickle_io` returns `None` without analysis, the node is
encoded structurally, and such a value never appears in the analyzer
invocation log of any dump. -/
theorem claim_C4 (env : Env) (ty : Nat) (fs : List Value) (st : PState)
    (h : ty ∉ knownTypesL env) :
    analyzeInvoked env (.mk ty fs) = false ∧
    getNonPickleIo env (.mk ty fs) = none ∧
    serializeVal env (.mk ty fs) st
      = (.node ty (serializeFields env fs st).1, (serializeFields env fs st).2) ∧
    (∀ (model : Value) (c : Nat),
      Value.mk ty fs ∈ (serializeModel env c model).2.analyzed → False) := by
  have hai : analyzeInvoked env (.mk ty fs) = false := by
    rw [analyzeInvoked]
    exact decide_eq_false h
  have hio : getNonPickleIo env (.mk ty fs) = none := by
    rw [getNonPickleIo,
      if_neg (show (Value.mk ty fs).tyId ∉ knownTypesL env from h)]
  have hhook : hookState env (.mk ty fs) st = st := by
    rw [hookState, hai]
    rfl
  refine ⟨hai, hio, ?_, ?_⟩
  · rw [serializeVal_node st hio, hhook]
  · intro model c hmem
    rcases serLogVal env model ⟨c, [], []⟩ (Value.mk ty fs) hmem with h' | h'
    · exact absurd h' (List.not_mem_nil _)
    · rw [hai] at h'
      exact Bool.false_ne_true h'

/-- Witness for claim C4 at runtime type 0, which is outside the concrete
known-types set `[7]`. -/
theorem claim_C4_witness :
    analyzeInvoked testEnv (.mk 0 [Value.mk 7 []]) = false ∧
    getNonPickleIo testEnv (.mk 0 [Value.mk 7 []]) = none ∧
    serializeVal testEnv (.mk 0 [Value.mk 7 []]) ⟨0, [], []⟩
      = (.node 0 (serializeFields testEnv [Value.mk 7 []] ⟨0, [], []⟩).1,
         (serializeFields testEnv [Value.mk 7 []] ⟨0, [], []⟩).2) ∧
    (∀ (model : Value) (c : Nat),
      Value.mk 0 [Value.mk 7 []]
        ∈ (serializeModel testEnv c model).2.analyzed → False) :=
  claim_C4 testEnv 0 [Value.mk 7 []] ⟨0, [], []⟩ (by decide)

/-- Claim C5: when the capability lookup on a sub-value either raises the
non-model `ValueError` or resolves to one of the generic codecs
(`PickleModelIO` / `SimplePickleIO`), `_get_non_pickle_io` returns `None`:
no reference-table entry is created, no placeholder token is emitted, and
the node falls through to the ordinary structural encoding.  Neither
outcome can surface as an error: the serializer is total on this path (the
`ValueError` is caught and suppressed in the source). -/
theorem claim_C5 (env : Env) (ty : Nat) (fs : List Value) (st : PState)
    (h : env.analyze (.mk ty fs) = .notModel ∨
      ∃ i, env.analyze (.mk ty fs) = .model i ∧ isGenericIo i = true) :
    getNonPickleIo env (.mk ty fs) = none ∧
    serializeVal env (.mk ty fs) st
      = (.node ty (serializeFields env fs (hookState env (.mk ty fs) st)).1,
         (serializeFields env fs (hookState env (.mk ty fs) st)).2) ∧
    (serializeVal env (.mk ty fs) st).2.refs
      = (serializeFields env fs (hookState env (.mk ty fs) st)).2.refs := by
  have hio : getNonPickleIo env (.mk ty fs) = none := by
    rw [getNonPickleIo]
    by_cases hk : (Value.mk ty fs).tyId ∈ knownTypesL env
    · rw [if_pos hk]
      rcases h with h | ⟨i, hi, hgen⟩
      · rw [h]
      · rw [hi]
        show (if isGenericIo i = true then none else some i) = none
        rw [if_pos hgen]
    · rw [if_neg hk]
  refine ⟨hio, ?_, ?_⟩
  · rw [serializeVal_node st hio]
  · rw [serializeVal_node st hio]

/-- Witness for claim C5: in the environment whose analyzer always raises
the non-model `ValueError`, a value of known type 7 still falls through to
structural encoding. -/
theorem claim_C5_witness :
    getNonPickleIo testEnvNoModel (.mk 7 []) = none ∧
    serializeVal testEnvNoModel (.mk 7 []) ⟨0, [], []⟩
      = (.node 7 (serializeFields testEnvNoModel []
          (hookState testEnvNoModel (.mk 7 []) ⟨0, [], []⟩)).1,
         (serializeFields testEnvNoModel []
          (hookState testEnvNoModel (.mk 7 []) ⟨0, [], []⟩)).2) ∧
    (serializeVal testEnvNoModel (.mk 7 []) ⟨0, [], []⟩).2.refs
      = (serializeFields testEnvNoModel []
          (hookState testEnvNoModel (.mk 7 []) ⟨0, [], []⟩)).2.refs :=
  claim_C5 testEnvNoModel 7 [] ⟨0, [], []⟩ (Or.inl rfl)

/-- Counterexample to claim C6 as stated: in the value `vShared` the very
same intercepted sub-value `Value.mk 7 []` is reachable through two paths,
and the dump-time reference table records it under two different tokens —
`persistent_id` is consulted before the pickle memo, so one sub-value does
not correspond to exactly one token. -/
theorem claim_C6_counterexample :
    ¬ (∀ r1 ∈ (serializeModel testEnv 0 vShared).2.refs,
        ∀ r2 ∈ (serializeModel testEnv 0 vShared).2.refs,
          r1.2.2 = r2.2.2 → r1.1 = r2.1) := by
  intro hforall
  have hrefs : (serializeModel testEnv 0 vShared).2.refs
      = [(mintToken 0, 5, Value.mk 7 []), (mintToken 1, 5, Value.mk 7 [])] := rfl
  have h01 := hforall (mintToken 0, 5, Value.mk 7 [])
    (by rw [hrefs]; exact List.mem_cons_self _ _)
    (mintToken 1, 5, Value.mk 7 [])
    (by rw [hrefs]; exact List.mem_cons_of_mem _ (List.mem_cons_self _ _))
    rfl
  exact absurd h01 (by decide)

theorem serModel_tokens_range (env : Env) (c : Nat) (model : Value) :
    ∀ r ∈ (serializeModel env c model).2.refs,
      ∃ m, r.1 = mintToken m ∧ c ≤ m ∧
        m < (serializeModel env c model).2.counter := by
  intro r hr
  have hm : r.1 ∈ (serializeModel env c model).2.refs.map Prod.fst :=
    List.mem_map.mpr ⟨r, hr, rfl⟩
  rw [serModel_refs_tokens] at hm
  obtain ⟨m, hm1, hm2⟩ := List.mem_map.mp hm
  obtain ⟨hle, hlt⟩ := List.mem_range'_1.mp hm1
  obtain ⟨hctr, _⟩ := serSpec env model ⟨c, [], []⟩
  refine ⟨m, hm2.symm, hle, ?_⟩
  have : (serializeModel env c model).2.counter = (serializeVal env model ⟨c, [], []⟩).2.counter := rfl
  omega

/-- Claim C6, amended: a fresh token is minted once per *interception event*
(a sub-value reachable through several paths is intercepted once per
encounter, see the counterexample), no two entries of one reference table
share a token, and tokens are never reused across operations: a second dump
drawing from the advanced uuid4 supply uses tokens disjoint from the
first's. -/
theorem claim_C6_amended (env : Env) (c : Nat) (model : Value)
    (env' : Env) (model' : Value) :
    ((serializeModel env c model).2.refs.map Prod.fst).Nodup ∧
    (∀ t ∈ (serializeModel env c model).2.refs.map Prod.fst,
      t ∉ (serializeModel env' (serializeModel env c model).2.counter
        model').2.refs.map Prod.fst) := by
  refine ⟨serModel_tokens_nodup env c model, ?_⟩
  intro t ht ht'
  obtain ⟨r, hr, hre⟩ := List.mem_map.mp ht
  obtain ⟨m, hm, _, hmlt⟩ := serModel_tokens_range env c model r hr
  obtain ⟨r', hr', hre'⟩ := List.mem_map.mp ht'
  obtain ⟨m', hm', hm'ge, _⟩ := serModel_tokens_range env'
    (serializeModel env c model).2.counter model' r' hr'
  have : mintToken m = mintToken m' := by
    rw [← hm, ← hm', hre, hre']
  have := mintToken_inj this
  omega

/-- Counterexample to claim C8 as stated: a sub-artifact name that itself
ends in the descriptor suffix `".io"` is classified as a descriptor by the
load-side partition (the `endswith` test runs before the underscore split),
not as the data artifact `(T, s)`. -/
theorem claim_C8_counterexample :
    classifyName (rekeyName (mintToken 0) ['w', '.', 'i', 'o'])
      ≠ ArtClass.data (mintToken 0) ['w', '.', 'i', 'o'] := by
  decide

/-- Claim C8, amended: for every token and every sub-artifact name `s` that
does not end in the descriptor suffix `".io"`, the load-side classification
of the dump-side re-keyed name is a data artifact recovering exactly
`(token, s)` — the split is on the first underscore only, so this holds
even when `s` contains further underscores. -/
theorem claim_C8_amended (n : Nat) (s : Name) (hs : endsWithExt s = false) :
    classifyName (rekeyName (mintToken n) s) = .data (mintToken n) s :=
  classifyName_rekey (underscore_not_mem_mintToken n) hs

/-- Witness for amended claim C8 at a sub-name with interior underscores
and dots. -/
theorem claim_C8_amended_witness :
    endsWithExt ['a', '_', 'b', '.', 'c'] = false ∧
    classifyName (rekeyName (mintToken 0) ['a', '_', 'b', '.', 'c'])
      = .data (mintToken 0) ['a', '_', 'b', '.', 'c'] :=
  ⟨by decide, claim_C8_amended 0 ['a', '_', 'b', '.', 'c'] (by decide)⟩

/-- Claim C9: serializing a codec's identity (`_serialize_io`, the dotted
`module.ClassName` string) and deserializing it back (`_deserialize_io`,
split off the class name after the last dot, re-join the module path, then
resolve and instantiate) yields the same codec class again, provided the
class name is dot-free (a Python identifier) and the import table resolves
the dotted identity to that class.  `deserializeIo` takes only the import
table: the dump-time capability lookup (`ModelAnalyzer`) is not an input of
the load side at all. -/
theorem claim_C9 (env : Env) (i : Nat)
    (hdot : '.' ∉ (env.codec i).clsName)
    (himp : lookupD env.importTable
      ((env.codec i).modName, (env.codec i).clsName) = some i) :
    deserializeIo env.importTable (.text (serIoName env i)) = some i := by
  rw [deserializeIo, serIoName, splitDots_append_dot, splitDots_no_dot hdot]
  rw [List.getLast?_concat]
  show lookupD env.importTable
    (joinDots (splitDots ((env.codec i).modName) ++ [(env.codec i).clsName]).dropLast,
     (env.codec i).clsName) = some i
  rw [List.dropLast_concat, joinDots_splitDots]
  exact himp

/-- Witness for claim C9 at the concrete codec class id 5. -/
theorem claim_C9_witness :
    '.' ∉ (testEnv.codec 5).clsName ∧
    lookupD testEnv.importTable
      ((testEnv.codec 5).modName, (testEnv.codec 5).clsName) = some 5 ∧
    deserializeIo testEnv.importTable (.text (serIoName testEnv 5)) = some 5 :=
  ⟨by decide, rfl, claim_C9 testEnv 5 (by decide) rfl⟩

/-- Claim C10: for every artifact set with no entry under the reserved root
name `"data.pkl"`, load fails immediately with the root lookup error — the
root artifact is looked up first (`artifacts[self.file_name]`), before any
other artifact is opened or examined, however malformed the rest of the
set may be. -/
theorem claim_C10 (env : Env) (arts : Arts)
    (h : lookupD arts rootName = none) :
    load env arts = .error .missingRoot := by
  simp only [load, h]

/-- Witness for claim C10: a set holding only an unrelated (and malformed)
artifact is rejected with the root lookup error. -/
theorem claim_C10_witness :
    lookupD ([((['x'] : Name), (⟨['p'], .text ['g']⟩ : Artifact))] : Arts)
      rootName = none ∧
    load testEnv ([((['x'] : Name), (⟨['p'], .text ['g']⟩ : Artifact))] : Arts)
      = .error .missingRoot :=
  ⟨rfl, claim_C10 testEnv _ rfl⟩
